import Mathlib

/-!
Verification of the Open Library dump pipeline (openlibrary/data/dump.py).

This file gives a shallow embedding of the pipeline's core functions and
proves/refutes the frozen claims about them.

Modelling conventions:
* Python strings are `String` (sequences of unicode code points); Python
  string operations are modelled on `List Char`.
* Parsed JSON documents are `JValue` (Python dicts become association lists
  in insertion order; real dicts have unique keys, and all operations used
  by the source touch only the first occurrence of a key, matching dict
  semantics on such lists).
* Code that can raise an exception is modelled in `Option`: `none` means the
  Python run raises.  A handful of Python behaviours that the dump format
  never exercises (stringifying a non-string `key` via `web.safestr`,
  `str()` of booleans/lists used as a `revision`, `int()` of strings with
  surrounding whitespace) are modelled as errors; the claims under study
  only concern records that do not hit those corners.
* `hash` (Python's process-seeded string hash) and the exit status of the
  external `sort` subprocess are taken as parameters.
-/

/-! ## Text codec (pgencode / pgdecode, lines 288-323) -/

/-- Substitution performed by `_pgencode = _make_sub(_pgencode_dict)`:
leftmost-first, non-overlapping replacement of the characters
newline, carriage-return, tab, backslash by their two-character escapes. -/
def pgencodeSubL : List Char → List Char
  | [] => []
  | '\n' :: rest => '\\' :: 'n' :: pgencodeSubL rest
  | '\r' :: rest => '\\' :: 'r' :: pgencodeSubL rest
  | '\t' :: rest => '\\' :: 't' :: pgencodeSubL rest
  | '\\' :: rest => '\\' :: '\\' :: pgencodeSubL rest
  | c :: rest => c :: pgencodeSubL rest

/-- Substitution performed by `_pgdecode = _make_sub(_invert_dict(_pgencode_dict))`:
the compiled regex alternation tries the two-character escapes in the order
backslash-n, backslash-r, backslash-t, backslash-backslash at each position,
scanning left to right; a position with no match emits its character unchanged. -/
def pgdecodeSubL : List Char → List Char
  | '\\' :: 'n' :: rest => '\n' :: pgdecodeSubL rest
  | '\\' :: 'r' :: rest => '\r' :: pgdecodeSubL rest
  | '\\' :: 't' :: rest => '\t' :: pgdecodeSubL rest
  | '\\' :: '\\' :: rest => '\\' :: pgdecodeSubL rest
  | c :: rest => c :: pgdecodeSubL rest
  | [] => []

/-- Wrapper produced by `_make_sub`: `lambda s: s and rx.sub(f, s)`.
A falsy argument (`None` or the empty string) is returned unchanged. -/
def pgSub (sub : List Char → List Char) : Option String → Option String
  | none => none
  | some s => if s = "" then some s else some ⟨sub s.data⟩

/-- Embeds `pgencode` (line 312).  Note the source body is `return _pgdecode(text)`:
it applies the DECODE substitution, despite its docstring
"Reverse of pgdecode" and the unused `_pgencode` defined two lines above. -/
def pgencode (text : Option String) : Option String := pgSub pgdecodeSubL text

/-- Embeds `pgdecode` (line 317): applies the decode substitution. -/
def pgdecode (text : Option String) : Option String := pgSub pgdecodeSubL text

/-! ## Record model and normalization (_process_key, _process_data, lines 254-285) -/

/-- Parsed JSON payloads: the duck-typed nested structure `_process_data` walks. -/
inductive JValue where
  | null : JValue
  | bool : Bool → JValue
  | num : Int → JValue
  | str : String → JValue
  | arr : List JValue → JValue
  | obj : List (String × JValue) → JValue

/-- First-occurrence lookup in an object's field list (Python dict read). -/
def jLookup (k : String) : List (String × JValue) → Option JValue
  | [] => none
  | (k1, v) :: rest => if k1 = k then some v else jLookup k rest

/-- Replace the value of the first field named `k` (Python dict assignment
to a key that is already present). -/
def jSetFirst (k : String) (v : JValue) : List (String × JValue) → List (String × JValue)
  | [] => []
  | (k1, v1) :: rest => if k1 = k then (k, v) :: rest else (k1, v1) :: jSetFirst k v rest

/-- Models `d.pop('id', None)` on the top-level dict: drop the first `id` field. -/
def jPopId : List (String × JValue) → List (String × JValue)
  | [] => []
  | (k, v) :: rest => if k = "id" then rest else (k, v) :: jPopId rest

/-- Python `s.startswith(pre)`. -/
def pyStartsWith (s pre : String) : Bool := pre.data.isPrefixOf s.data

/-- Python `s.replace(' ', 'T')`: every space becomes a `T`
(for a single-character pattern this is a character-wise map). -/
def pyReplaceSpaceT (s : String) : String := ⟨s.data.map (fun c => if c = ' ' then 'T' else c)⟩

/-- Embeds `_process_key` on character lists: the rewrite table
`/l/ -> /languages/, /a/ -> /authors/, /b/ -> /books/, /user/ -> /people/`
is scanned in that order and the first matching short form is replaced. -/
def processKeyL (l : List Char) : List Char :=
  if [ '/', 'l', '/' ].isPrefixOf l then
    [ '/', 'l', 'a', 'n', 'g', 'u', 'a', 'g', 'e', 's', '/' ] ++ l.drop 3
  else if [ '/', 'a', '/' ].isPrefixOf l then
    [ '/', 'a', 'u', 't', 'h', 'o', 'r', 's', '/' ] ++ l.drop 3
  else if [ '/', 'b', '/' ].isPrefixOf l then
    [ '/', 'b', 'o', 'o', 'k', 's', '/' ] ++ l.drop 3
  else if [ '/', 'u', 's', 'e', 'r', '/' ].isPrefixOf l then
    [ '/', 'p', 'e', 'o', 'p', 'l', 'e', '/' ] ++ l.drop 6
  else l

/-- Embeds `_process_key` (line 254). -/
def processKey (key : String) : String := ⟨processKeyL key.data⟩

mutual
/-- Tree depth of a payload; leaves (including every string) have depth 0.
Used only as the termination measure of `processData`: the in-place field
rewrites replace string leaves by string leaves, so they preserve depth. -/
def jDepth : JValue → Nat
  | .arr l => jDepthL l + 1
  | .obj kvs => jDepthF kvs + 1
  | _ => 0

/-- Depth of a list of payloads. -/
def jDepthL : List JValue → Nat
  | [] => 0
  | v :: rest => max (jDepth v) (jDepthL rest)

/-- Depth of an object's field list. -/
def jDepthF : List (String × JValue) → Nat
  | [] => 0
  | kv :: rest => max (jDepth kv.2) (jDepthF rest)
end

/-- First in-place rewrite `_process_data` performs on a dict:
`if 'key' in data: data['key'] = _process_key(data['key'])`.
A non-string `key` raises (`.startswith` on a non-string). -/
def keyRewrite (kvs : List (String × JValue)) : Option (List (String × JValue)) :=
  match jLookup "key" kvs with
  | none => some kvs
  | some (.str s) => some (jSetFirst "key" (.str (processKey s)) kvs)
  | some _ => none

/-- Second in-place rewrite: `if data.get('type') == '/type/datetime':
data['value'] = data['value'].replace(' ', 'T')`.
A missing or non-string `value` raises. -/
def dtRewrite (kvs : List (String × JValue)) : Option (List (String × JValue)) :=
  match jLookup "type" kvs with
  | some (.str "/type/datetime") =>
    match jLookup "value" kvs with
    | some (.str v) => some (jSetFirst "value" (.str (pyReplaceSpaceT v)) kvs)
    | _ => none
  | _ => some kvs

/-- Both in-place rewrites, in source order. -/
def objRewrite (kvs : List (String × JValue)) : Option (List (String × JValue)) :=
  (keyRewrite kvs).bind dtRewrite

theorem jDepthF_setFirst_str (k : String) (s : String) (kvs : List (String × JValue)) :
    jDepthF (jSetFirst k (.str s) kvs) ≤ jDepthF kvs := by
  induction kvs with
  | nil => simp [jSetFirst]
  | cons kv rest ih =>
    obtain ⟨k1, v1⟩ := kv
    simp only [jSetFirst]
    split
    · simp [jDepthF, jDepth]
    · simp only [jDepthF]
      exact max_le_max (le_refl _) ih

theorem keyRewrite_depth {kvs kvs1 : List (String × JValue)}
    (h : keyRewrite kvs = some kvs1) : jDepthF kvs1 ≤ jDepthF kvs := by
  unfold keyRewrite at h
  split at h
  · cases h; exact le_refl _
  · cases h; exact jDepthF_setFirst_str _ _ _
  · exact absurd h (by simp)

theorem dtRewrite_depth {kvs kvs1 : List (String × JValue)}
    (h : dtRewrite kvs = some kvs1) : jDepthF kvs1 ≤ jDepthF kvs := by
  unfold dtRewrite at h
  split at h
  · split at h
    · cases h; exact jDepthF_setFirst_str _ _ _
    · exact absurd h (by simp)
  · cases h; exact le_refl _

theorem objRewrite_depth {kvs kvs1 : List (String × JValue)}
    (h : objRewrite kvs = some kvs1) : jDepthF kvs1 ≤ jDepthF kvs := by
  unfold objRewrite at h
  cases hk : keyRewrite kvs with
  | none => rw [hk] at h; exact absurd h (by simp)
  | some kvsA =>
    rw [hk] at h
    simp only [Option.some_bind] at h
    exact le_trans (dtRewrite_depth h) (keyRewrite_depth hk)

mutual
/-- Embeds `_process_data` (line 271): lists recurse element-wise, dicts get the two
in-place rewrites and then recurse into every (rewritten) field value,
everything else is returned unchanged. -/
def processData : JValue → Option JValue
  | .obj kvs =>
    match h : objRewrite kvs with
    | none => none
    | some kvs1 =>
      match processFields kvs1 with
      | none => none
      | some kvs2 => some (.obj kvs2)
  | .arr l =>
    match processArr l with
    | none => none
    | some l1 => some (.arr l1)
  | v => some v
termination_by v => (jDepth v, 1, 0)
decreasing_by
  · apply Prod.Lex.right'
    · have := objRewrite_depth h
      simp only [jDepth]
      omega
    · exact Prod.Lex.left _ _ (by omega)
  · apply Prod.Lex.right'
    · simp only [jDepth]
      omega
    · exact Prod.Lex.left _ _ (by omega)

/-- The dict comprehension `{k: _process_data(v) for k, v in data.items()}`. -/
def processFields : List (String × JValue) → Option (List (String × JValue))
  | [] => some []
  | (k, v) :: rest =>
    match processData v with
    | none => none
    | some v1 =>
      match processFields rest with
      | none => none
      | some rest1 => some ((k, v1) :: rest1)
termination_by kvs => (jDepthF kvs + 1, 0, sizeOf kvs)
decreasing_by
  · apply Prod.Lex.left
    simp only [jDepthF]
    omega
  · apply Prod.Lex.right'
    · simp only [jDepthF]
      omega
    · apply Prod.Lex.right'
      · omega
      · simp

/-- The list comprehension `[_process_data(d) for d in data]`. -/
def processArr : List JValue → Option (List JValue)
  | [] => some []
  | v :: rest =>
    match processData v with
    | none => none
    | some v1 =>
      match processArr rest with
      | none => none
      | some rest1 => some (v1 :: rest1)
termination_by l => (jDepthL l + 1, 0, sizeOf l)
decreasing_by
  · apply Prod.Lex.left
    simp only [jDepthL]
    omega
  · apply Prod.Lex.right'
    · simp only [jDepthL]
      omega
    · apply Prod.Lex.right'
      · omega
      · simp
end

/-! ## Full-snapshot generator (print_dump, lines 27-52; generate_cdump, lines 90-103) -/

/-- One emitted dump line: the five tab-separated columns
`type, key, str(revision), timestamp, json`.  The serialized payload is kept
as its `JValue` rather than re-serialized text. -/
structure DumpLine where
  type : String
  key : String
  revision : String
  timestamp : String
  data : JValue

/-- Models `str(d['revision'])` as used on line 52.  Integers and strings render as
in Python; other payload shapes (booleans, lists, ...) are outside the dump
format and modelled as errors. -/
def renderRevision : JValue → Option String
  | .num n => some (toString n)
  | .str s => some s
  | _ => none

/-- The body of `print_dump`'s loop for one parsed record.
Result `none` models an exception aborting the run, `some none` a record
skipped by the filters, `some (some line)` an emitted line.
Steps in source order: pop `id`, normalize via `_process_data`, read
`key`, `type.key` and `last_modified.value`, apply the key-prefix filters,
apply the optional caller filter (skipping only on a `False` result), and
finally read `revision` while printing. -/
def printDumpRecord (flt : Option (JValue → Option Bool)) (jd : JValue) : Option (Option DumpLine) :=
  match jd with
  | .obj kvs0 =>
    match processData (.obj (jPopId kvs0)) with
    | some (.obj kvs) =>
      match jLookup "key" kvs with
      | some (.str key) =>
        match jLookup "type" kvs with
        | some (.obj tkvs) =>
          match jLookup "key" tkvs with
          | some (.str ty) =>
            match jLookup "last_modified" kvs with
            | some (.obj lmkvs) =>
              match jLookup "value" lmkvs with
              | some (.str ts) =>
                if pyStartsWith key "/people/" || pyStartsWith key "/admin/" then some none
                else if pyStartsWith key "/b/" || pyStartsWith key "/scan" ||
                    pyStartsWith key "/old/" || !pyStartsWith key "/" then some none
                else
                  let emit : Option (Option DumpLine) :=
                    match jLookup "revision" kvs with
                    | some rv =>
                      match renderRevision rv with
                      | some rs => some (some ⟨ty, key, rs, ts, .obj kvs⟩)
                      | none => none
                    | none => none
                  match flt with
                  | some f =>
                    match f (.obj kvs) with
                    | none => none
                    | some b => if b then emit else some none
                  | none => emit
              | _ => none
            | _ => none
          | _ => none
        | _ => none
      | _ => none
    | _ => none
  | _ => none

/-- Embeds `print_dump` over a list of parsed records, collecting the emitted lines.
`none` when any record raises (Python aborts the whole run). -/
def printDump (flt : Option (JValue → Option Bool)) (records : List JValue) :
    Option (List DumpLine) :=
  (records.mapM (printDumpRecord flt)).map (fun ls => ls.filterMap id)

/-- Python `<` on strings, on character lists: lexicographic by code
point, with a proper prefix comparing less. -/
def pyLtChars : List Char → List Char → Bool
  | [], [] => false
  | [], _ :: _ => true
  | _ :: _, [] => false
  | c1 :: r1, c2 :: r2 =>
    if c1 < c2 then true
    else if c2 < c1 then false
    else pyLtChars r1 r2

/-- Python `a < b` on strings. -/
def pyStrLt (a b : String) : Bool := pyLtChars a.data b.data

/-- The date filter built by `generate_cdump` (line 101):
`lambda doc: doc['last_modified']['value'] < date + "Z"`,
with Python string comparison (lexicographic by code point). -/
def cdumpDateFilter (date : String) (d : JValue) : Option Bool :=
  match d with
  | .obj kvs =>
    match jLookup "last_modified" kvs with
    | some (.obj lm) =>
      match jLookup "value" lm with
      | some (.str v) => some (pyStrLt v (date ++ "Z"))
      | _ => none
    | _ => none
  | _ => none

/-- Embeds `generate_cdump` (line 90) on parsed records:
`filter = date and (lambda doc: ...)` makes a missing or empty date mean
"no filtering at all". -/
def generateCdump (date : Option String) (records : List JValue) : Option (List DumpLine) :=
  match date with
  | none => printDump none records
  | some dt =>
    if dt = "" then printDump none records
    else printDump (some (cdumpDateFilter dt)) records

/-! ## Revision-collapse engine (generate_dump, lines 144-159) -/

/-- Value of a decimal digit character. -/
def digitVal (c : Char) : Option Nat :=
  if '0' ≤ c ∧ c ≤ '9' then some (c.toNat - '0'.toNat) else none

/-- Accumulating decimal parse of a digit string. -/
def digitsToNatAux : Nat → List Char → Option Nat
  | acc, [] => some acc
  | acc, c :: rest => (digitVal c).bind (fun d => digitsToNatAux (acc * 10 + d) rest)

/-- Parse a nonempty all-digit string. -/
def digitsToNat : List Char → Option Nat
  | [] => none
  | l => digitsToNatAux 0 l

/-- Python `int(s)` on the revision column: an optional sign followed by
decimal digits.  (Python also tolerates surrounding whitespace and
underscores, which the dump format never produces; those raise here.) -/
def pyInt (s : String) : Option Int :=
  match s.data with
  | '-' :: rest => (digitsToNat rest).map (fun n => -(n : Int))
  | '+' :: rest => (digitsToNat rest).map (fun n => (n : Int))
  | l => (digitsToNat l).map (fun n => (n : Int))

/-- Models `revision = lambda cols: int(cols[2])`; a row with fewer than three
columns or a non-numeric third column raises. -/
def rowRevision (r : List String) : Option Int := (r.get? 2).bind pyInt

/-- One comparison step of Python's `max`: keep the accumulator unless the
next row's key is strictly greater. -/
def maxStep (acc y : List String) : Option (List String) :=
  (rowRevision acc).bind (fun ra =>
    (rowRevision y).map (fun ry => if ry > ra then y else acc))

/-- Models `max(rows, key=revision)`: scan left to right keeping the current
maximum, replacing it only on a strictly greater key, so the first row
of a tie wins; empty groups cannot occur (groupby groups are nonempty). -/
def pyMaxByRevision : List (List String) → Option (List String)
  | [] => none
  | x :: xs => xs.foldlM maxStep x

/-- Models `itertools.groupby(data, key=lambda cols: cols[1])`: group consecutive
rows whose key column is equal, tagging each group with its key. -/
def groupByKey : List (String × List String) → List (String × List (List String))
  | [] => []
  | (k, r) :: rest =>
    match groupByKey rest with
    | [] => [(k, [r])]
    | (k2, g) :: gs =>
      if k = k2 then (k, r :: g) :: gs else (k, [r]) :: (k2, g) :: gs

/-- The grouping key `lambda cols: cols[1]`, paired with its row; a row
with fewer than two columns raises IndexError. -/
def keyOfRow (r : List String) : Option (String × List String) :=
  (r.get? 1).map (fun k => (k, r))

/-- Embeds `generate_dump` (line 144) on already-split rows: group consecutive rows
by column 1 and keep the maximum-revision row of each group, in group order.
Rows lacking a key column, or revisions `int()` cannot parse, raise. -/
def generateDump (rows : List (List String)) : Option (List (List String)) := do
  let keyed ← rows.mapM keyOfRow
  (groupByKey keyed).mapM (fun g => pyMaxByRevision g.2)

/-! ## External merge sort (sort_dump, lines 106-141) -/

/-- Python `bytes.strip()` whitespace set. -/
def pyIsSpace (c : Char) : Bool :=
  c = ' ' || c = '\t' || c = '\n' || c = '\r' || c = '\x0B' || c = '\x0C'

/-- Python `s.strip()`. -/
def pyStrip (s : String) : String :=
  ⟨((s.data.dropWhile pyIsSpace).reverse.dropWhile pyIsSpace).reverse⟩

/-- Python `s.split('\t')`: split at every tab, keeping empty fields. -/
def splitTab : List Char → List (List Char)
  | [] => [ [] ]
  | c :: rest =>
    let r := splitTab rest
    if c = '\t' then [] :: r
    else
      match r with
      | [] => [ [ c ] ]
      | f :: fs => (c :: f) :: fs

/-- The unpack `type, key, revision, timestamp, json_data =
line.strip().split(b"\t")` (line 126), keeping the key column; any other
field count raises ValueError. -/
def lineKey (line : String) : Option String :=
  match splitTab (pyStrip line).data with
  | [_t, k, _r, _ts, _j] => some ⟨k⟩
  | _ => none

/-- Models `files[findex].write(line)`: append a line to bucket `i` of the list of
open bucket files (bucket indices produced by the split are always in
range). -/
def appendAt : List (List String) → Nat → String → List (List String)
  | [], _, _ => []
  | f :: fs, 0, x => (f ++ [x]) :: fs
  | f :: fs, i + 1, x => f :: appendAt fs i x

/-- The (key, revision) columns of a wire line, as `sort_dump`'s unpack
splits them. -/
def lineKeyRev (line : String) : Option (String × String) :=
  match splitTab (pyStrip line).data with
  | [_t, k, r, _ts, _j] => some (⟨k⟩, ⟨r⟩)
  | _ => none

/-- The body of the partition loop for one line: unpack the five fields and
append the raw line to bucket `hash(key) % 256` (line 126-128). -/
def splitStep (hash : String → Nat) (files : List (List String)) (line : String) :
    Option (List (List String)) :=
  (lineKey line).map (fun k => appendAt files (hash k % 256) line)

/-- The partition phase of `sort_dump` (lines 114-128): 256 initially empty
bucket files; each input line is appended to bucket `hash(key) % 256`.
`hash` is Python's run-seeded string hash, taken as a parameter. -/
def sortDumpSplit (hash : String → Nat) (lines : List String) :
    Option (List (List String)) :=
  lines.foldlM (splitStep hash) (List.replicate 256 [])

/-- The bucket-sort phase of `sort_dump` (lines 135-141): run the external
sort on each bucket file in order; a non-zero exit status raises
`Exception("sort failed with status %d" % status)` immediately.  Returns the
buckets on which the external sort was invoked and the surfaced non-zero
status, if any.  `status` models `os.system`'s exit code per file. -/
def sortDumpBuckets (status : String → Int) : List String → List String × Option Int
  | [] => ([], none)
  | f :: rest =>
    if status f = 0 then
      let r := sortDumpBuckets status rest
      (f :: r.1, r.2)
    else ([f], some (status f))

/-! ## Paths into payloads and sample records (for claims C2, C6, C7, C8, C10) -/

/-- One step into a nested payload: a named field of a dict or an index of
a list. -/
inductive JPath where
  | field : String → JPath
  | idx : Nat → JPath

/-- Follow a path of field names and indices into a payload. -/
def getPath : List JPath → JValue → Option JValue
  | [], v => some v
  | .field k :: p, .obj kvs => (jLookup k kvs).bind (getPath p)
  | .idx i :: p, .arr l => (l.get? i).bind (getPath p)
  | _, _ => none

/-- Structural induction for `JValue` through its nested lists. -/
def JValue.indOn {P : JValue → Prop}
    (hnull : P .null) (hbool : ∀ b, P (.bool b)) (hnum : ∀ n, P (.num n))
    (hstr : ∀ s, P (.str s))
    (harr : ∀ l, (∀ x ∈ l, P x) → P (.arr l))
    (hobj : ∀ kvs, (∀ kv ∈ kvs, P kv.2) → P (.obj kvs)) : ∀ v, P v
  | .null => hnull
  | .bool b => hbool b
  | .num n => hnum n
  | .str s => hstr s
  | .arr l => harr l (fun x hx =>
      JValue.indOn hnull hbool hnum hstr harr hobj x)
  | .obj kvs => hobj kvs (fun kv hkv =>
      JValue.indOn hnull hbool hnum hstr harr hobj kv.2)
termination_by v => sizeOf v
decreasing_by
  · have := List.sizeOf_lt_of_mem hx
    simp only [JValue.arr.sizeOf_spec]
    omega
  · have h1 := List.sizeOf_lt_of_mem hkv
    have h2 : sizeOf kv.2 < sizeOf kv := by
      obtain ⟨a, b⟩ := kv
      simp only [Prod.mk.sizeOf_spec]
      omega
    simp only [JValue.obj.sizeOf_spec]
    omega

/-- Fields of a sample well-formed author record whose datetime value is
`t` (the shape produced by the revision store). -/
def tsFields (t : String) : List (String × JValue) :=
  [("key", .str "/authors/OL1A"),
   ("type", .obj [("key", .str "/type/author")]),
   ("revision", .num 2),
   ("last_modified", .obj [("type", .str "/type/datetime"), ("value", .str t)])]

/-- The same fields after normalization: only the datetime value changes. -/
def tsProcessedFields (t : String) : List (String × JValue) :=
  [("key", .str "/authors/OL1A"),
   ("type", .obj [("key", .str "/type/author")]),
   ("revision", .num 2),
   ("last_modified", .obj [("type", .str "/type/datetime"), ("value", .str (pyReplaceSpaceT t))])]

/-- The sample record as a payload. -/
def tsRecord (t : String) : JValue := .obj (tsFields t)

/-- The dump line `print_dump` emits for the sample record. -/
def tsLine (t : String) : DumpLine :=
  ⟨"/type/author", "/authors/OL1A", "2", pyReplaceSpaceT t, .obj (tsProcessedFields t)⟩

/-! ## Codec theorems (claims C1, C3) -/

/-- Unfolding the encode substitution at an unescaped character. -/
theorem pgencodeSubL_cons_other (c : Char) (rest : List Char)
    (h1 : c ≠ '\n') (h2 : c ≠ '\r') (h3 : c ≠ '\t') (h4 : c ≠ '\\') :
    pgencodeSubL (c :: rest) = c :: pgencodeSubL rest := by
  rw [pgencodeSubL.eq_def]
  split
  all_goals first | rfl | simp_all

/-- Unfolding the decode substitution at a non-backslash character. -/
theorem pgdecodeSubL_cons_other (c : Char) (rest : List Char) (h4 : c ≠ '\\') :
    pgdecodeSubL (c :: rest) = c :: pgdecodeSubL rest := by
  rw [pgdecodeSubL.eq_def]
  split
  all_goals first | rfl | simp_all

/-- The intended round trip does hold for the substituters themselves:
decoding an encoded string restores it.  (Context for C1: the `pgencode`
entry point does not call the encode substituter.) -/
theorem pgdecodeSubL_pgencodeSubL (l : List Char) : pgdecodeSubL (pgencodeSubL l) = l := by
  induction l with
  | nil => rfl
  | cons c rest ih =>
    by_cases h1 : c = '\n'
    · subst h1; simp only [pgencodeSubL, pgdecodeSubL, ih]
    · by_cases h2 : c = '\r'
      · subst h2; simp only [pgencodeSubL, pgdecodeSubL, ih]
      · by_cases h3 : c = '\t'
        · subst h3; simp only [pgencodeSubL, pgdecodeSubL, ih]
        · by_cases h4 : c = '\\'
          · subst h4; simp only [pgencodeSubL, pgdecodeSubL, ih]
          · rw [pgencodeSubL_cons_other c rest h1 h2 h3 h4,
              pgdecodeSubL_cons_other c _ h4, ih]

/-- C1: the claim `pgdecode (pgencode s) = s` fails on the two-character
string backslash-n, because `pgencode`'s body applies the decode
substitution (see its definition): the round trip decodes twice, turning
backslash-n into a newline. -/
theorem claim1_pgencode_is_not_inverse :
    pgdecode (pgencode (some "\\n")) = some "\n" ∧ ("\n" : String) ≠ "\\n" := by
  constructor
  · rfl
  · decide

/-- C3: `pgencode` and `pgdecode` are extensionally the same function on
every input (including `None` and the empty string): both bodies return
`_pgdecode(text)`. -/
theorem claim3_pgencode_eq_pgdecode : ∀ text : Option String, pgencode text = pgdecode text :=
  fun _ => rfl

/-! ## Bucket-sort failure theorem (claim C9) -/

/-- C9: if some bucket's external sort exits non-zero, the whole operation
aborts at the first such bucket: the error surfaces that exit status, and
exactly the buckets up to and including the failing one were processed
(none after it). -/
theorem claim9_sort_failure_fatal (status : String → Int) (files : List String)
    (i : Nat) (hi : i < files.length)
    (hfail : status (files.get ⟨i, hi⟩) ≠ 0)
    (hprev : ∀ j (hj : j < i), status (files.get ⟨j, Nat.lt_trans hj hi⟩) = 0) :
    sortDumpBuckets status files =
      (files.take (i + 1), some (status (files.get ⟨i, hi⟩))) := by
  induction files generalizing i with
  | nil => simp at hi
  | cons f rest ih =>
    cases i with
    | zero =>
      simp only [List.get] at hfail
      unfold sortDumpBuckets
      simp [hfail]
    | succ n =>
      have h0 : status f = 0 := hprev 0 (Nat.succ_pos n)
      have hn : n < rest.length := Nat.lt_of_succ_lt_succ hi
      unfold sortDumpBuckets
      simp only [h0, if_pos]
      have hrec := ih n hn (by simpa using hfail)
        (fun j hj => by simpa using hprev (j + 1) (Nat.succ_lt_succ hj))
      simp [hrec, List.take]

/-- Witness for C9 at a concrete input: three buckets, the second fails
with status 2; the first two are processed, the third is not, status 2 is
surfaced. -/
theorem claim9_witness :
    sortDumpBuckets (fun f => if f = "b" then 2 else 0) ["a", "b", "c"] =
      (["a", "b"], some 2) := by
  have h := claim9_sort_failure_fatal (fun f => if f = "b" then (2 : Int) else 0)
    ["a", "b", "c"] 1 (by decide) (by decide)
    (by
      intro j hj
      have hj0 : j = 0 := by omega
      subst hj0
      rfl)
  simpa using h

/-! ## Bucket partition theorems (claim C5) -/

theorem appendAt_length (files : List (List String)) (i : Nat) (x : String) :
    (appendAt files i x).length = files.length := by
  induction files generalizing i with
  | nil => rfl
  | cons f fs ih =>
    cases i with
    | zero => rfl
    | succ n => simp [appendAt, ih]

theorem appendAt_flatten_perm (files : List (List String)) (i : Nat) (x : String)
    (hi : i < files.length) :
    (appendAt files i x).flatten.Perm (files.flatten ++ [x]) := by
  induction files generalizing i with
  | nil => simp at hi
  | cons f fs ih =>
    cases i with
    | zero =>
      simp only [appendAt, List.flatten_cons, List.append_assoc]
      exact (List.perm_append_left_iff f).mpr List.perm_append_comm
    | succ n =>
      simp only [appendAt, List.flatten_cons, List.append_assoc]
      exact (List.perm_append_left_iff f).mpr (ih n (Nat.lt_of_succ_lt_succ hi))

theorem appendAt_get (files : List (List String)) (i : Nat) (x : String)
    (j : Nat) (hj : j < (appendAt files i x).length) (hjf : j < files.length) :
    (appendAt files i x).get ⟨j, hj⟩ =
      if j = i then files.get ⟨j, hjf⟩ ++ [x] else files.get ⟨j, hjf⟩ := by
  induction files generalizing i j with
  | nil => simp at hjf
  | cons f fs ih =>
    cases i with
    | zero =>
      cases j with
      | zero => simp [appendAt]
      | succ m => simp [appendAt]
    | succ n =>
      cases j with
      | zero => simp [appendAt]
      | succ m =>
        simp only [appendAt, List.get_cons_succ] at hj ⊢
        rw [ih n m _ (Nat.lt_of_succ_lt_succ hjf)]
        simp [Nat.succ_inj]

theorem flatten_replicate_nil : ∀ n : Nat, (List.replicate n ([] : List String)).flatten = []
  | 0 => rfl
  | n + 1 => by rw [List.replicate_succ, List.flatten_cons, List.nil_append,
      flatten_replicate_nil n]

theorem sortSplitFrom_spec (hash : String → Nat) :
    ∀ (lines : List String) (files buckets : List (List String)),
    files.length = 256 →
    lines.foldlM (splitStep hash) files = some buckets →
    buckets.length = 256 ∧
    buckets.flatten.Perm (files.flatten ++ lines) ∧
    (∀ j (hj : j < buckets.length) (hjf : j < files.length) (x : String),
      x ∈ buckets.get ⟨j, hj⟩ ↔ x ∈ files.get ⟨j, hjf⟩ ∨
        (x ∈ lines ∧ ∃ k, lineKey x = some k ∧ hash k % 256 = j)) := by
  intro lines
  induction lines with
  | nil =>
    intro files buckets hlen h
    simp only [List.foldlM_nil, pure, Option.some_inj] at h
    subst h
    refine ⟨hlen, by simp, ?_⟩
    intro j hj hjf x
    simp
  | cons line rest ih =>
    intro files buckets hlen h
    simp only [List.foldlM_cons] at h
    cases hk : lineKey line with
    | none => simp [splitStep, hk] at h
    | some k =>
      simp only [splitStep, hk, Option.map_some', Option.some_bind] at h
      set files1 := appendAt files (hash k % 256) line with hf1
      have hlen1 : files1.length = 256 := by rw [hf1, appendAt_length, hlen]
      have hmod : hash k % 256 < files.length := by
        rw [hlen]; exact Nat.mod_lt _ (by norm_num)
      obtain ⟨hblen, hperm, hmem⟩ := ih files1 buckets hlen1 h
      refine ⟨hblen, ?_, ?_⟩
      · refine hperm.trans ?_
        have h1 := (appendAt_flatten_perm files _ line hmod).append_right rest
        have h2 : (files.flatten ++ [line]) ++ rest = files.flatten ++ (line :: rest) := by
          rw [List.append_assoc]
          rfl
        exact h2 ▸ h1
      · intro j hj hjf x
        rw [hmem j hj (by omega)]
        have hget : files1.get ⟨j, by omega⟩ =
            if j = hash k % 256 then files.get ⟨j, hjf⟩ ++ [line]
            else files.get ⟨j, hjf⟩ := appendAt_get files _ line j _ hjf
        by_cases hjeq : j = hash k % 256
        · rw [hget, if_pos hjeq]
          constructor
          · rintro (hx | ⟨hxr, hk2⟩)
            · rcases List.mem_append.mp hx with hx | hx
              · exact Or.inl hx
              · have hxl : x = line := by simpa using hx
                exact Or.inr ⟨by simp [hxl], k, by rw [hxl]; exact hk, hjeq.symm⟩
            · exact Or.inr ⟨List.mem_cons_of_mem _ hxr, hk2⟩
          · rintro (hx | ⟨hxr, hk2⟩)
            · exact Or.inl (List.mem_append.mpr (Or.inl hx))
            · rcases List.mem_cons.mp hxr with hxl | hxr2
              · exact Or.inl (List.mem_append.mpr (Or.inr (by simp [hxl])))
              · exact Or.inr ⟨hxr2, hk2⟩
        · rw [hget, if_neg hjeq]
          constructor
          · rintro (hx | ⟨hxr, hk2⟩)
            · exact Or.inl hx
            · exact Or.inr ⟨List.mem_cons_of_mem _ hxr, hk2⟩
          · rintro (hx | ⟨hxr, hk2⟩)
            · exact Or.inl hx
            · rcases List.mem_cons.mp hxr with hxl | hxr2
              · exfalso
                obtain ⟨k2, hk2e, hk2m⟩ := hk2
                rw [hxl, hk] at hk2e
                cases hk2e
                exact hjeq hk2m.symm
              · exact Or.inr ⟨hxr2, hk2⟩

/-- Every line the partition loop accepted has a well-formed five-field
split (otherwise the run would have aborted). -/
theorem sortSplitFrom_parses (hash : String → Nat) :
    ∀ (lines : List String) (files buckets : List (List String)),
    lines.foldlM (splitStep hash) files = some buckets →
    ∀ line ∈ lines, ∃ k, lineKey line = some k := by
  intro lines
  induction lines with
  | nil => intro files buckets _ line hline; simp at hline
  | cons l rest ih =>
    intro files buckets h line hline
    simp only [List.foldlM_cons] at h
    cases hk : lineKey l with
    | none => simp [splitStep, hk] at h
    | some k =>
      simp only [splitStep, hk, Option.map_some', Option.some_bind] at h
      rcases List.mem_cons.mp hline with hl | hl
      · exact ⟨k, by rw [hl]; exact hk⟩
      · exact ih _ _ h line hl

/-- C5: the partition phase is a strict partition of the input lines:
the 256 buckets' contents are a permutation of the input (so the multiset
of (key, revision) pairs is preserved with no loss or duplication), each
line lands exactly in bucket `hash(key) % 256`, and lines sharing a key
always share a bucket. -/
theorem claim5_bucket_partition (hash : String → Nat) (lines : List String)
    (buckets : List (List String)) (h : sortDumpSplit hash lines = some buckets) :
    buckets.length = 256 ∧
    buckets.flatten.Perm lines ∧
    (buckets.flatten.map lineKeyRev).Perm (lines.map lineKeyRev) ∧
    (∀ line ∈ lines, ∃ k, lineKey line = some k ∧
      ∀ j (hj : j < buckets.length), (line ∈ buckets.get ⟨j, hj⟩ ↔ j = hash k % 256)) ∧
    (∀ l1 ∈ lines, ∀ l2 ∈ lines, ∀ k1 k2,
      lineKey l1 = some k1 → lineKey l2 = some k2 → k1 = k2 →
      ∀ j (hj : j < buckets.length),
        (l1 ∈ buckets.get ⟨j, hj⟩ ↔ l2 ∈ buckets.get ⟨j, hj⟩)) := by
  have hrepl : (List.replicate 256 ([] : List String)).length = 256 :=
    List.length_replicate 256 []
  obtain ⟨hblen, hperm, hmem⟩ := sortSplitFrom_spec hash lines _ buckets hrepl h
  have hparse := sortSplitFrom_parses hash lines _ buckets h
  rw [flatten_replicate_nil 256, List.nil_append] at hperm
  have hmem2 : ∀ line ∈ lines, ∃ k, lineKey line = some k ∧
      ∀ j (hj : j < buckets.length), (line ∈ buckets.get ⟨j, hj⟩ ↔ j = hash k % 256) := by
    intro line hline
    obtain ⟨k, hk⟩ := hparse line hline
    refine ⟨k, hk, ?_⟩
    intro j hj
    rw [hmem j hj (by omega)]
    have : (List.replicate 256 ([] : List String)).get ⟨j, by omega⟩ = [] :=
      List.get_replicate _ _
    rw [this]
    simp only [List.not_mem_nil, false_or]
    constructor
    · rintro ⟨_, k2, hk2, hmod⟩
      rw [hk] at hk2
      cases hk2
      exact hmod.symm
    · intro hjeq
      exact ⟨hline, k, hk, hjeq.symm⟩
  refine ⟨hblen, hperm, hperm.map lineKeyRev, hmem2, ?_⟩
  intro l1 h1 l2 h2 k1 k2 hk1 hk2 hkeq j hj
  obtain ⟨ka, hka, hma⟩ := hmem2 l1 h1
  obtain ⟨kb, hkb, hmb⟩ := hmem2 l2 h2
  rw [hka] at hk1
  rw [hkb] at hk2
  cases hk1
  cases hk2
  rw [hma j hj, hmb j hj, hkeq]

/-- Witness for C5 at a concrete input: one well-formed line with key `a`
under the length hash lands in bucket 1 and the flattened buckets are a
permutation of the input. -/
theorem claim5_witness :
    (([] : List String) :: ["t\ta\t1\tts\tj"] :: List.replicate 254 []).flatten.Perm
      ["t\ta\t1\tts\tj"] :=
  (claim5_bucket_partition (fun s => s.length) ["t\ta\t1\tts\tj"]
    (([] : List String) :: ["t\ta\t1\tts\tj"] :: List.replicate 254 []) (by rfl)).2.1

/-! ## Revision-collapse theorems (claim C4) -/

theorem maxFold_spec : ∀ (xs : List (List String)) (acc : List String) (ra : Int),
    rowRevision acc = some ra →
    (∀ x ∈ xs, ∃ rx : Int, rowRevision x = some rx) →
    ∃ o ro, xs.foldlM maxStep acc = some o ∧ (o = acc ∨ o ∈ xs) ∧
      rowRevision o = some ro ∧ ra ≤ ro ∧
      (∀ x ∈ xs, ∀ rx : Int, rowRevision x = some rx → rx ≤ ro) := by
  intro xs
  induction xs with
  | nil =>
    intro acc ra hra _
    exact ⟨acc, ra, rfl, Or.inl rfl, hra, le_refl _, by simp⟩
  | cons y ys ih =>
    intro acc ra hra hall
    obtain ⟨ry, hry⟩ := hall y (List.mem_cons_self _ _)
    have hstep : maxStep acc y = some (if ry > ra then y else acc) := by
      simp [maxStep, hra, hry]
    by_cases hcmp : ry > ra
    · obtain ⟨o, ro, hfold, hmem, hro, hle, hbound⟩ :=
        ih y ry hry (fun z hz => hall z (List.mem_cons_of_mem _ hz))
      refine ⟨o, ro, ?_, ?_, hro, by omega, ?_⟩
      · simp only [List.foldlM_cons, hstep, if_pos hcmp, Option.some_bind]
        exact hfold
      · rcases hmem with h | h
        · exact Or.inr (h ▸ List.mem_cons_self _ _)
        · exact Or.inr (List.mem_cons_of_mem _ h)
      · intro z hz rz hrz
        rcases List.mem_cons.mp hz with h | h
        · rw [h, hry] at hrz; cases hrz; exact hle
        · exact hbound z h rz hrz
    · obtain ⟨o, ro, hfold, hmem, hro, hle, hbound⟩ :=
        ih acc ra hra (fun z hz => hall z (List.mem_cons_of_mem _ hz))
      refine ⟨o, ro, ?_, ?_, hro, hle, ?_⟩
      · simp only [List.foldlM_cons, hstep, if_neg hcmp, Option.some_bind]
        exact hfold
      · rcases hmem with h | h
        · exact Or.inl h
        · exact Or.inr (List.mem_cons_of_mem _ h)
      · intro z hz rz hrz
        rcases List.mem_cons.mp hz with h | h
        · rw [h, hry] at hrz; cases hrz; omega
        · exact hbound z h rz hrz

theorem pyMaxByRevision_spec (g : List (List String)) (hne : g ≠ [])
    (hall : ∀ x ∈ g, ∃ rx : Int, rowRevision x = some rx) :
    ∃ o ro, pyMaxByRevision g = some o ∧ o ∈ g ∧ rowRevision o = some ro ∧
      (∀ x ∈ g, ∀ rx : Int, rowRevision x = some rx → rx ≤ ro) := by
  cases g with
  | nil => exact absurd rfl hne
  | cons x xs =>
    obtain ⟨rx, hrx⟩ := hall x (List.mem_cons_self _ _)
    obtain ⟨o, ro, hfold, hmem, hro, hle, hbound⟩ :=
      maxFold_spec xs x rx hrx (fun z hz => hall z (List.mem_cons_of_mem _ hz))
    refine ⟨o, ro, hfold, ?_, hro, ?_⟩
    · rcases hmem with h | h
      · exact h ▸ List.mem_cons_self _ _
      · exact List.mem_cons_of_mem _ h
    · intro z hz rz hrz
      rcases List.mem_cons.mp hz with h | h
      · rw [h, hrx] at hrz; cases hrz; exact hle
      · exact hbound z h rz hrz

/-- One-step unfolding of the consecutive grouping. -/
theorem groupByKey_cons_eq (k : String) (r : List String) (t : List (String × List String)) :
    groupByKey ((k, r) :: t) =
      match groupByKey t with
      | [] => [(k, [r])]
      | (k2, g) :: gs => if k = k2 then (k, r :: g) :: gs else (k, [r]) :: (k2, g) :: gs := rfl

theorem groupByKey_cons (k : String) (r : List String) (t : List (String × List String)) :
    ∃ g gs, groupByKey ((k, r) :: t) = (k, g) :: gs := by
  rw [groupByKey_cons_eq]
  cases h : groupByKey t with
  | nil => exact ⟨[r], [], rfl⟩
  | cons p gs =>
    obtain ⟨k2, g2⟩ := p
    by_cases hk : k = k2
    · exact ⟨r :: g2, gs, by simp [hk]⟩
    · exact ⟨[r], (k2, g2) :: gs, by simp [hk]⟩

theorem groupByKey_block : ∀ (rows : List (List String)) (k : String)
    (tail : List (String × List String)),
    rows ≠ [] →
    (∀ p t2, tail = p :: t2 → p.1 ≠ k) →
    groupByKey (rows.map (fun r => (k, r)) ++ tail) = (k, rows) :: groupByKey tail := by
  intro rows
  induction rows with
  | nil => intro k tail hne _; exact absurd rfl hne
  | cons r rows1 ih =>
    intro k tail _ htail
    cases rows1 with
    | nil =>
      simp only [List.map_cons, List.map_nil, List.nil_append, List.cons_append]
      cases tail with
      | nil => simp [groupByKey]
      | cons p t2 =>
        obtain ⟨pk, pr⟩ := p
        obtain ⟨g, gs, hg⟩ := groupByKey_cons pk pr t2
        have hpk : pk ≠ k := htail (pk, pr) t2 rfl
        rw [groupByKey_cons_eq, hg]
        simp [Ne.symm hpk]
    | cons r2 rows2 =>
      have hrec := ih k tail (by simp) htail
      simp only [List.map_cons, List.cons_append] at hrec ⊢
      rw [groupByKey_cons_eq, hrec]
      simp

theorem mapM_keyOfRow_block (k : String) :
    ∀ (rows rest : List (List String)) (restval : List (String × List String)),
    (∀ r ∈ rows, r.get? 1 = some k) →
    rest.mapM keyOfRow = some restval →
    (rows ++ rest).mapM keyOfRow = some (rows.map (fun r => (k, r)) ++ restval) := by
  intro rows
  induction rows with
  | nil => intro rest restval _ h; simpa using h
  | cons r rows1 ih =>
    intro rest restval hall h
    have h1 : r.get? 1 = some k := hall r (List.mem_cons_self _ _)
    have hr : keyOfRow r = some (k, r) := by
      simp only [keyOfRow, h1, Option.map_some']
    have hrec := ih rest restval (fun z hz => hall z (List.mem_cons_of_mem _ hz)) h
    simp only [List.cons_append, List.mapM_cons, hr, hrec, Option.some_bind,
      Option.pure_def, Option.some_inj, List.map_cons]
    rfl

theorem groupByKey_flatten : ∀ (gs : List (String × List (List String))),
    (∀ g ∈ gs, g.2 ≠ []) →
    List.Chain' (· ≠ ·) (gs.map Prod.fst) →
    groupByKey ((gs.map (fun g => g.2.map (fun r => (g.1, r)))).flatten) = gs := by
  intro gs
  induction gs with
  | nil => intro _ _; rfl
  | cons g rest ih =>
    intro hne hchain
    simp only [List.map_cons, List.flatten_cons]
    have hct : List.Chain' (· ≠ ·) (rest.map Prod.fst) := by
      have h2 := hchain
      simp only [List.map_cons] at h2
      exact h2.tail
    have hrest : ∀ p t2,
        ((rest.map (fun g => g.2.map (fun r => (g.1, r)))).flatten) = p :: t2 →
        p.1 ≠ g.1 := by
      intro p t2 hp
      cases rest with
      | nil => simp at hp
      | cons g2 rest2 =>
        cases hg2 : g2.2 with
        | nil => exact absurd hg2 (hne g2 (List.mem_cons_of_mem _ (List.mem_cons_self _ _)))
        | cons s ss =>
          simp only [List.map_cons, List.flatten_cons, hg2, List.cons_append] at hp
          injection hp with h1 _
          have hchain2 : g.1 ≠ g2.1 := by
            have h2 := hchain
            simp only [List.map_cons, List.chain'_cons] at h2
            exact h2.1
          rw [← h1]
          exact hchain2.symm
    rw [groupByKey_block g.2 g.1 _ (hne g (List.mem_cons_self _ _)) hrest]
    rw [ih (fun z hz => hne z (List.mem_cons_of_mem _ hz)) hct]

theorem forall2_strengthen {α β : Type} {R S : α → β → Prop} :
    ∀ {l1 : List α} {l2 : List β}, List.Forall₂ R l1 l2 →
    (∀ a ∈ l1, ∀ b, R a b → S a b) → List.Forall₂ S l1 l2 := by
  intro l1 l2 h
  induction h with
  | nil => intro _; exact List.Forall₂.nil
  | cons hpair hrest ih =>
    intro himp
    exact List.Forall₂.cons (himp _ (List.mem_cons_self _ _) _ hpair)
      (ih (fun a ha b hab => himp a (List.mem_cons_of_mem _ ha) b hab))

theorem mapM_max_spec : ∀ (gs : List (String × List (List String))),
    (∀ g ∈ gs, g.2 ≠ [] ∧ ∀ r ∈ g.2, ∃ rr : Int, rowRevision r = some rr) →
    ∃ out, gs.mapM (fun g => pyMaxByRevision g.2) = some out ∧
      List.Forall₂ (fun g o => o ∈ g.2 ∧ ∃ ro : Int, rowRevision o = some ro ∧
        ∀ r ∈ g.2, ∀ rr : Int, rowRevision r = some rr → rr ≤ ro) gs out := by
  intro gs
  induction gs with
  | nil => exact fun _ => ⟨[], rfl, List.Forall₂.nil⟩
  | cons g rest ih =>
    intro hall
    obtain ⟨hne, hrev⟩ := hall g (List.mem_cons_self _ _)
    obtain ⟨o, ro, hmax, hmem, hro, hbound⟩ := pyMaxByRevision_spec g.2 hne hrev
    obtain ⟨out, hout, hforall⟩ := ih (fun z hz => hall z (List.mem_cons_of_mem _ hz))
    refine ⟨o :: out, ?_, List.Forall₂.cons ⟨hmem, ro, hro, hbound⟩ hforall⟩
    simp only [List.mapM_cons, hmax, hout, Option.some_bind, Option.pure_def,
      Option.some_inj]
    rfl

/-- C4: on key-grouped input (given as a list of nonempty groups with
pairwise-distinct keys, all of whose rows carry that key in column 1 and a
parsable integer revision in column 2), `generate_dump` succeeds and emits
exactly one row per group, in group order; each emitted row belongs to its
group, carries the group key, and its revision is the maximum of the
group's revisions (on ties exactly one row is still emitted, since the
output has exactly one row per group). -/
theorem claim4_revision_collapse (gs : List (String × List (List String)))
    (rows : List (List String))
    (hrows : rows = (gs.map (fun g => g.2)).flatten)
    (hne : ∀ g ∈ gs, g.2 ≠ [])
    (hkey : ∀ g ∈ gs, ∀ r ∈ g.2, r.get? 1 = some g.1)
    (hnodup : (gs.map Prod.fst).Nodup)
    (hrev : ∀ r ∈ rows, ∃ rr : Int, rowRevision r = some rr) :
    ∃ out, generateDump rows = some out ∧
      out.length = gs.length ∧
      List.Forall₂ (fun g o =>
        o ∈ g.2 ∧ o.get? 1 = some g.1 ∧
        ∃ ro : Int, rowRevision o = some ro ∧
          ∀ r ∈ g.2, ∀ rr : Int, rowRevision r = some rr → rr ≤ ro) gs out := by
  have hmapM : rows.mapM keyOfRow =
      some ((gs.map (fun g => g.2.map (fun r => (g.1, r)))).flatten) := by
    subst hrows
    clear hnodup hrev
    induction gs with
    | nil => rfl
    | cons g rest ih =>
      simp only [List.map_cons, List.flatten_cons]
      exact mapM_keyOfRow_block g.1 g.2 _ _
        (hkey g (List.mem_cons_self _ _))
        (ih (fun z hz => hne z (List.mem_cons_of_mem _ hz))
            (fun z hz => hkey z (List.mem_cons_of_mem _ hz)))
  have hgroup := groupByKey_flatten gs hne (List.Pairwise.chain' hnodup)
  have hall : ∀ g ∈ gs, g.2 ≠ [] ∧ ∀ r ∈ g.2, ∃ rr : Int, rowRevision r = some rr := by
    intro g hg
    refine ⟨hne g hg, ?_⟩
    intro r hr
    apply hrev
    rw [hrows]
    exact List.mem_flatten.mpr ⟨g.2, List.mem_map.mpr ⟨g, hg, rfl⟩, hr⟩
  obtain ⟨out, hout, hforall⟩ := mapM_max_spec gs hall
  refine ⟨out, ?_, hforall.length_eq.symm, ?_⟩
  · rw [generateDump]
    simp only [hmapM, Option.some_bind, Option.bind_eq_bind]
    rw [hgroup]
    exact hout
  · refine forall2_strengthen hforall ?_
    rintro g hg o ⟨hmem, hro⟩
    exact ⟨hmem, hkey g hg o hmem, hro⟩

/-- Witness for C4 at a concrete input: two groups, the first with a
revision tie broken to one emitted row. -/
theorem claim4_witness :
    ∃ out, generateDump
        [["t", "k1", "2", "x", "y"], ["t", "k1", "2", "z", "w"], ["t", "k2", "7", "a", "b"]] =
        some out ∧
      out.length = 2 := by
  obtain ⟨out, hout, hlen, _⟩ := claim4_revision_collapse
    [("k1", [["t", "k1", "2", "x", "y"], ["t", "k1", "2", "z", "w"]]),
     ("k2", [["t", "k2", "7", "a", "b"]])]
    [["t", "k1", "2", "x", "y"], ["t", "k1", "2", "z", "w"], ["t", "k2", "7", "a", "b"]]
    (by rfl)
    (by decide)
    (by decide)
    (by decide)
    (by intro r hr; fin_cases hr; exacts [⟨2, rfl⟩, ⟨2, rfl⟩, ⟨7, rfl⟩])
  exact ⟨out, hout, hlen⟩

/-! ## Basic lemmas on strings and object field lists -/

theorem isPrefixOf_append (l1 t : List Char) : l1.isPrefixOf (l1 ++ t) = true := by
  induction l1 with
  | nil => simp [List.isPrefixOf]
  | cons c cs ih => simp [List.isPrefixOf, ih]

theorem isPrefixOf_exists {l1 l2 : List Char} (h : l1.isPrefixOf l2 = true) :
    ∃ t, l2 = l1 ++ t := by
  induction l1 generalizing l2 with
  | nil => exact ⟨l2, rfl⟩
  | cons c cs ih =>
    cases l2 with
    | nil => simp [List.isPrefixOf] at h
    | cons d ds =>
      simp only [List.isPrefixOf, Bool.and_eq_true, beq_iff_eq] at h
      obtain ⟨t, ht⟩ := ih h.2
      exact ⟨t, by rw [← h.1, ht]; rfl⟩

theorem jLookup_setFirst_same {k : String} {v : JValue} {kvs : List (String × JValue)}
    (h : (jLookup k kvs).isSome) : jLookup k (jSetFirst k v kvs) = some v := by
  induction kvs with
  | nil => simp [jLookup] at h
  | cons kv rest ih =>
    obtain ⟨k1, v1⟩ := kv
    by_cases hk : k1 = k
    · simp [jSetFirst, jLookup, hk]
    · simp only [jLookup, if_neg hk] at h
      simp [jSetFirst, jLookup, hk, ih h]

theorem jLookup_setFirst_ne {k k2 : String} {v : JValue} {kvs : List (String × JValue)}
    (h : k2 ≠ k) : jLookup k2 (jSetFirst k v kvs) = jLookup k2 kvs := by
  induction kvs with
  | nil => rfl
  | cons kv rest ih =>
    obtain ⟨k1, v1⟩ := kv
    by_cases hk : k1 = k
    · subst hk
      simp [jSetFirst, jLookup, Ne.symm h]
    · simp only [jSetFirst, if_neg hk]
      by_cases hk2 : k1 = k2
      · simp [jLookup, hk2]
      · simp [jLookup, hk2, ih]

theorem jSetFirst_self {k : String} {v : JValue} {kvs : List (String × JValue)}
    (h : jLookup k kvs = some v) : jSetFirst k v kvs = kvs := by
  induction kvs with
  | nil => rfl
  | cons kv rest ih =>
    obtain ⟨k1, v1⟩ := kv
    by_cases hk : k1 = k
    · subst hk
      rw [jLookup, if_pos rfl] at h
      injection h with h
      rw [jSetFirst, if_pos rfl, h]
    · rw [jLookup, if_neg hk] at h
      rw [jSetFirst, if_neg hk, ih h]

theorem jSetFirst_mem {k : String} {v : JValue} {kvs : List (String × JValue)}
    {kv : String × JValue} (h : kv ∈ jSetFirst k v kvs) : kv ∈ kvs ∨ kv = (k, v) := by
  induction kvs with
  | nil => simp [jSetFirst] at h
  | cons kv1 rest ih =>
    obtain ⟨k1, v1⟩ := kv1
    by_cases hk : k1 = k
    · rw [jSetFirst, if_pos hk] at h
      rcases List.mem_cons.mp h with h | h
      · exact Or.inr h
      · exact Or.inl (List.mem_cons_of_mem _ h)
    · rw [jSetFirst, if_neg hk] at h
      rcases List.mem_cons.mp h with h | h
      · exact Or.inl (h ▸ List.mem_cons_self _ _)
      · rcases ih h with h | h
        · exact Or.inl (List.mem_cons_of_mem _ h)
        · exact Or.inr h

theorem jLookup_popId_ne {k : String} {kvs : List (String × JValue)} (h : k ≠ "id") :
    jLookup k (jPopId kvs) = jLookup k kvs := by
  induction kvs with
  | nil => rfl
  | cons kv rest ih =>
    obtain ⟨k1, v1⟩ := kv
    by_cases hid : k1 = "id"
    · subst hid
      rw [jPopId, if_pos rfl, jLookup, if_neg (fun hh : "id" = k => h hh.symm)]
    · rw [jPopId, if_neg hid]
      by_cases hk : k1 = k
      · rw [jLookup, if_pos hk, jLookup, if_pos hk]
      · rw [jLookup, if_neg hk, jLookup, if_neg hk, ih]

/-! ## Unfolding lemmas for the normalization recursion -/

theorem processData_null : processData .null = some .null := by simp [processData]

theorem processData_bool (b : Bool) : processData (.bool b) = some (.bool b) := by
  simp [processData]

theorem processData_num (n : Int) : processData (.num n) = some (.num n) := by
  simp [processData]

theorem processData_str (s : String) : processData (.str s) = some (.str s) := by
  simp [processData]

theorem processData_obj_iff {kvs : List (String × JValue)} {d2 : JValue} :
    processData (.obj kvs) = some d2 ↔
    ∃ kvs1 kvs2, objRewrite kvs = some kvs1 ∧ processFields kvs1 = some kvs2 ∧
      d2 = .obj kvs2 := by
  constructor
  · intro h
    rw [processData] at h
    split at h
    · exact absurd h (by simp)
    next kvs1 h1 =>
      split at h
      · exact absurd h (by simp)
      next kvs2 h2 =>
        injection h with h
        exact ⟨kvs1, kvs2, h1, h2, h.symm⟩
  · rintro ⟨kvs1, kvs2, h1, h2, rfl⟩
    rw [processData]
    split
    next hnone => rw [h1] at hnone; cases hnone
    next kvsA hA =>
      rw [h1] at hA
      injection hA with hA
      subst hA
      split
      next hnone => rw [h2] at hnone; cases hnone
      next kvsB hB =>
        rw [h2] at hB
        injection hB with hB
        rw [hB]

theorem processData_arr_iff {l : List JValue} {d2 : JValue} :
    processData (.arr l) = some d2 ↔
    ∃ l2, processArr l = some l2 ∧ d2 = .arr l2 := by
  constructor
  · intro h
    rw [processData] at h
    split at h
    · exact absurd h (by simp)
    next l2 h2 =>
      injection h with h
      exact ⟨l2, h2, h.symm⟩
  · rintro ⟨l2, h2, rfl⟩
    rw [processData]
    split
    next hnone => rw [h2] at hnone; cases hnone
    next l3 h3 =>
      rw [h2] at h3
      injection h3 with h3
      rw [h3]

theorem processFields_forall2 {fs fs2 : List (String × JValue)} :
    processFields fs = some fs2 ↔
    List.Forall₂ (fun a b => a.1 = b.1 ∧ processData a.2 = some b.2) fs fs2 := by
  constructor
  · intro h
    induction fs generalizing fs2 with
    | nil =>
      rw [processFields] at h
      injection h with h
      rw [← h]
      exact List.Forall₂.nil
    | cons kv rest ih =>
      obtain ⟨k, v⟩ := kv
      rw [processFields] at h
      split at h
      · cases h
      next v1 hv =>
        split at h
        · cases h
        next rest1 hrest =>
          injection h with h
          rw [← h]
          exact List.Forall₂.cons ⟨rfl, hv⟩ (ih hrest)
  · intro h
    induction h with
    | nil => rw [processFields]
    | cons hpair hrest ih =>
      rename_i a b l1 l2
      obtain ⟨k, v⟩ := a
      obtain ⟨k2, v2⟩ := b
      obtain ⟨hk, hv⟩ := hpair
      rw [processFields]
      split
      next hnone => rw [hv] at hnone; cases hnone
      next v3 h3 =>
        rw [hv] at h3
        injection h3 with h3
        split
        next hnone => rw [ih] at hnone; cases hnone
        next rest3 hrest3 =>
          rw [ih] at hrest3
          injection hrest3 with hrest3
          simp only at hk h3
          rw [hk, ← h3, hrest3]

theorem processArr_forall2 {l l2 : List JValue} :
    processArr l = some l2 ↔
    List.Forall₂ (fun a b => processData a = some b) l l2 := by
  constructor
  · intro h
    induction l generalizing l2 with
    | nil =>
      rw [processArr] at h
      injection h with h
      rw [← h]
      exact List.Forall₂.nil
    | cons v rest ih =>
      rw [processArr] at h
      split at h
      · cases h
      next v1 hv =>
        split at h
        · cases h
        next rest1 hrest =>
          injection h with h
          rw [← h]
          exact List.Forall₂.cons hv (ih hrest)
  · intro h
    induction h with
    | nil => rw [processArr]
    | cons hpair hrest ih =>
      rw [processArr]
      split
      next hnone => rw [hpair] at hnone; cases hnone
      next v3 h3 =>
        rw [hpair] at h3
        injection h3 with h3
        split
        next hnone => rw [ih] at hnone; cases hnone
        next rest3 hrest3 =>
          rw [ih] at hrest3
          injection hrest3 with hrest3
          rw [h3, hrest3]

/-! ## Lookup preservation through the normalization recursion -/

theorem forall2_lookup {fs fs2 : List (String × JValue)}
    (h : List.Forall₂ (fun a b => a.1 = b.1 ∧ processData a.2 = some b.2) fs fs2)
    (k : String) :
    (jLookup k fs = none → jLookup k fs2 = none) ∧
    (∀ v, jLookup k fs = some v →
      ∃ v2, jLookup k fs2 = some v2 ∧ processData v = some v2) := by
  induction h with
  | nil => exact ⟨fun _ => rfl, fun v hv => by simp [jLookup] at hv⟩
  | cons hpair hrest ih =>
    rename_i a b l1 l2
    obtain ⟨k1, v1⟩ := a
    obtain ⟨k2, v2⟩ := b
    obtain ⟨hk, hv⟩ := hpair
    simp only at hk hv
    subst hk
    constructor
    · intro hnone
      rw [jLookup] at hnone ⊢
      by_cases hke : k1 = k
      · rw [if_pos hke] at hnone; cases hnone
      · rw [if_neg hke] at hnone ⊢
        exact ih.1 hnone
    · intro v hv2
      rw [jLookup] at hv2 ⊢
      by_cases hke : k1 = k
      · rw [if_pos hke] at hv2 ⊢
        injection hv2 with hv2
        exact ⟨v2, rfl, hv2 ▸ hv⟩
      · rw [if_neg hke] at hv2 ⊢
        exact ih.2 v hv2

theorem keyRewrite_cases {kvs kvs1 : List (String × JValue)} (h : keyRewrite kvs = some kvs1) :
    (jLookup "key" kvs = none ∧ kvs1 = kvs) ∨
    (∃ s, jLookup "key" kvs = some (.str s) ∧
      kvs1 = jSetFirst "key" (.str (processKey s)) kvs) := by
  unfold keyRewrite at h
  split at h
  next hn => injection h with h; exact Or.inl ⟨hn, h.symm⟩
  next s hs => injection h with h; exact Or.inr ⟨s, hs, h.symm⟩
  next => cases h

theorem dtRewrite_cases {kvs kvs1 : List (String × JValue)} (h : dtRewrite kvs = some kvs1) :
    (jLookup "type" kvs ≠ some (.str "/type/datetime") ∧ kvs1 = kvs) ∨
    (jLookup "type" kvs = some (.str "/type/datetime") ∧
      ∃ v, jLookup "value" kvs = some (.str v) ∧
        kvs1 = jSetFirst "value" (.str (pyReplaceSpaceT v)) kvs) := by
  unfold dtRewrite at h
  split at h
  next htype =>
    split at h
    next v hval => injection h with h; exact Or.inr ⟨htype, v, hval, h.symm⟩
    next => cases h
  next hne =>
    injection h with h
    exact Or.inl ⟨hne, h.symm⟩

theorem objRewrite_lookup_nonstr {kvs kvs1 : List (String × JValue)} {k : String} {c : JValue}
    (h : objRewrite kvs = some kvs1) (hc : jLookup k kvs = some c)
    (hns : ∀ s, c ≠ .str s) : jLookup k kvs1 = some c := by
  unfold objRewrite at h
  cases hk : keyRewrite kvs with
  | none => rw [hk] at h; cases h
  | some kvsA =>
    rw [hk, Option.some_bind] at h
    have hA : jLookup k kvsA = some c := by
      rcases keyRewrite_cases hk with ⟨_, rfl⟩ | ⟨s, hs, rfl⟩
      · exact hc
      · by_cases hkk : k = "key"
        · subst hkk
          rw [hc] at hs
          injection hs with hs
          exact absurd hs (hns s)
        · rw [jLookup_setFirst_ne hkk]
          exact hc
    rcases dtRewrite_cases h with ⟨_, rfl⟩ | ⟨_, v, hv, rfl⟩
    · exact hA
    · by_cases hkk : k = "value"
      · subst hkk
        rw [hA] at hv
        injection hv with hv
        exact absurd hv (hns v)
      · rw [jLookup_setFirst_ne hkk]
        exact hA

/-! ## Key rewrite table lemmas -/

theorem processKeyL_lang (t : List Char) :
    processKeyL ([ '/', 'l', '/' ] ++ t) =
      [ '/', 'l', 'a', 'n', 'g', 'u', 'a', 'g', 'e', 's', '/' ] ++ t := by
  unfold processKeyL
  rw [if_pos (isPrefixOf_append _ _)]
  rfl

theorem processKeyL_auth (t : List Char) :
    processKeyL ([ '/', 'a', '/' ] ++ t) =
      [ '/', 'a', 'u', 't', 'h', 'o', 'r', 's', '/' ] ++ t := by
  unfold processKeyL
  rw [if_neg (by simp [List.isPrefixOf]), if_pos (isPrefixOf_append _ _)]
  rfl

theorem processKeyL_book (t : List Char) :
    processKeyL ([ '/', 'b', '/' ] ++ t) =
      [ '/', 'b', 'o', 'o', 'k', 's', '/' ] ++ t := by
  unfold processKeyL
  rw [if_neg (by simp [List.isPrefixOf]), if_neg (by simp [List.isPrefixOf]),
    if_pos (isPrefixOf_append _ _)]
  rfl

theorem processKeyL_user (t : List Char) :
    processKeyL ([ '/', 'u', 's', 'e', 'r', '/' ] ++ t) =
      [ '/', 'p', 'e', 'o', 'p', 'l', 'e', '/' ] ++ t := by
  unfold processKeyL
  rw [if_neg (by simp [List.isPrefixOf]), if_neg (by simp [List.isPrefixOf]),
    if_neg (by simp [List.isPrefixOf]), if_pos (isPrefixOf_append _ _)]
  rfl

theorem processKeyL_nomatch {l : List Char}
    (h1 : ¬ [ '/', 'l', '/' ].isPrefixOf l = true)
    (h2 : ¬ [ '/', 'a', '/' ].isPrefixOf l = true)
    (h3 : ¬ [ '/', 'b', '/' ].isPrefixOf l = true)
    (h4 : ¬ [ '/', 'u', 's', 'e', 'r', '/' ].isPrefixOf l = true) :
    processKeyL l = l := by
  unfold processKeyL
  rw [if_neg h1, if_neg h2, if_neg h3, if_neg h4]

theorem processKeyL_fix_lang (t : List Char) :
    processKeyL ([ '/', 'l', 'a', 'n', 'g', 'u', 'a', 'g', 'e', 's', '/' ] ++ t) =
      [ '/', 'l', 'a', 'n', 'g', 'u', 'a', 'g', 'e', 's', '/' ] ++ t :=
  processKeyL_nomatch (by simp [List.isPrefixOf]) (by simp [List.isPrefixOf])
    (by simp [List.isPrefixOf]) (by simp [List.isPrefixOf])

theorem processKeyL_fix_auth (t : List Char) :
    processKeyL ([ '/', 'a', 'u', 't', 'h', 'o', 'r', 's', '/' ] ++ t) =
      [ '/', 'a', 'u', 't', 'h', 'o', 'r', 's', '/' ] ++ t :=
  processKeyL_nomatch (by simp [List.isPrefixOf]) (by simp [List.isPrefixOf])
    (by simp [List.isPrefixOf]) (by simp [List.isPrefixOf])

theorem processKeyL_fix_book (t : List Char) :
    processKeyL ([ '/', 'b', 'o', 'o', 'k', 's', '/' ] ++ t) =
      [ '/', 'b', 'o', 'o', 'k', 's', '/' ] ++ t :=
  processKeyL_nomatch (by simp [List.isPrefixOf]) (by simp [List.isPrefixOf])
    (by simp [List.isPrefixOf]) (by simp [List.isPrefixOf])

theorem processKeyL_fix_people (t : List Char) :
    processKeyL ([ '/', 'p', 'e', 'o', 'p', 'l', 'e', '/' ] ++ t) =
      [ '/', 'p', 'e', 'o', 'p', 'l', 'e', '/' ] ++ t :=
  processKeyL_nomatch (by simp [List.isPrefixOf]) (by simp [List.isPrefixOf])
    (by simp [List.isPrefixOf]) (by simp [List.isPrefixOf])

theorem processKeyL_idem (l : List Char) : processKeyL (processKeyL l) = processKeyL l := by
  by_cases h1 : [ '/', 'l', '/' ].isPrefixOf l = true
  · obtain ⟨t, rfl⟩ := isPrefixOf_exists h1
    rw [processKeyL_lang, processKeyL_fix_lang]
  · by_cases h2 : [ '/', 'a', '/' ].isPrefixOf l = true
    · obtain ⟨t, rfl⟩ := isPrefixOf_exists h2
      rw [processKeyL_auth, processKeyL_fix_auth]
    · by_cases h3 : [ '/', 'b', '/' ].isPrefixOf l = true
      · obtain ⟨t, rfl⟩ := isPrefixOf_exists h3
        rw [processKeyL_book, processKeyL_fix_book]
      · by_cases h4 : [ '/', 'u', 's', 'e', 'r', '/' ].isPrefixOf l = true
        · obtain ⟨t, rfl⟩ := isPrefixOf_exists h4
          rw [processKeyL_user, processKeyL_fix_people]
        · rw [processKeyL_nomatch h1 h2 h3 h4, processKeyL_nomatch h1 h2 h3 h4]

theorem processKey_idem (s : String) : processKey (processKey s) = processKey s := by
  simp only [processKey]
  exact congrArg String.mk (processKeyL_idem s.data)

/-! ## Datetime substitution lemmas -/

theorem replaceSpace_map_idem (l : List Char) :
    (l.map (fun c => if c = ' ' then 'T' else c)).map (fun c => if c = ' ' then 'T' else c) =
      l.map (fun c => if c = ' ' then 'T' else c) := by
  rw [List.map_map]
  apply List.map_congr_left
  intro c _
  by_cases hc : c = ' ' <;> simp [Function.comp, hc]

theorem pyReplaceSpaceT_idem (s : String) :
    pyReplaceSpaceT (pyReplaceSpaceT s) = pyReplaceSpaceT s :=
  congrArg String.mk (replaceSpace_map_idem s.data)

theorem replaceSpace_map_id {l : List Char} (h : ' ' ∉ l) :
    l.map (fun c => if c = ' ' then 'T' else c) = l := by
  have hcong : ∀ c ∈ l, (if c = ' ' then 'T' else c) = c := by
    intro c hc
    rw [if_neg (fun hh : c = ' ' => h (hh ▸ hc))]
  rw [List.map_congr_left hcong]
  exact List.map_id _

theorem pyReplaceSpaceT_sep (date time : String)
    (hd : ' ' ∉ date.data) (ht : ' ' ∉ time.data) :
    pyReplaceSpaceT (date ++ " " ++ time) = date ++ "T" ++ time := by
  apply String.ext
  show ((date ++ " " ++ time).data.map (fun c => if c = ' ' then 'T' else c)) =
    (date ++ "T" ++ time).data
  rw [String.data_append, String.data_append, String.data_append, String.data_append,
    List.map_append, List.map_append, replaceSpace_map_id hd, replaceSpace_map_id ht]
  rfl

/-! ## Evaluation of the sample record through the generator -/

theorem processData_tsRecord (t : String) :
    processData (.obj (tsFields t)) = some (.obj (tsProcessedFields t)) := by
  apply processData_obj_iff.mpr
  refine ⟨tsFields t, tsProcessedFields t, rfl, ?_, rfl⟩
  apply processFields_forall2.mpr
  refine List.Forall₂.cons ⟨rfl, processData_str _⟩ ?_
  refine List.Forall₂.cons ⟨rfl, ?_⟩ ?_
  · apply processData_obj_iff.mpr
    refine ⟨[("key", .str "/type/author")], [("key", .str "/type/author")], rfl, ?_, rfl⟩
    exact processFields_forall2.mpr
      (List.Forall₂.cons ⟨rfl, processData_str _⟩ List.Forall₂.nil)
  refine List.Forall₂.cons ⟨rfl, processData_num _⟩ ?_
  refine List.Forall₂.cons ⟨rfl, ?_⟩ List.Forall₂.nil
  apply processData_obj_iff.mpr
  refine ⟨[("type", .str "/type/datetime"), ("value", .str (pyReplaceSpaceT t))],
    [("type", .str "/type/datetime"), ("value", .str (pyReplaceSpaceT t))], rfl, ?_, rfl⟩
  exact processFields_forall2.mpr
    (List.Forall₂.cons ⟨rfl, processData_str _⟩
      (List.Forall₂.cons ⟨rfl, processData_str _⟩ List.Forall₂.nil))

theorem printDumpRecord_tsRecord (flt : Option (JValue → Option Bool)) (t : String) :
    printDumpRecord flt (tsRecord t) =
      match flt with
      | none => some (some (tsLine t))
      | some f =>
        match f (.obj (tsProcessedFields t)) with
        | none => none
        | some b => if b then some (some (tsLine t)) else some none := by
  have h1 : jPopId (tsFields t) = tsFields t := rfl
  have h2 := processData_tsRecord t
  have h3 : jLookup "key" (tsProcessedFields t) = some (.str "/authors/OL1A") := rfl
  have h4 : jLookup "type" (tsProcessedFields t) =
      some (.obj [("key", .str "/type/author")]) := rfl
  have h5 : jLookup "key" [("key", (.str "/type/author" : JValue))] =
      some (.str "/type/author") := rfl
  have h6 : jLookup "last_modified" (tsProcessedFields t) =
      some (.obj [("type", .str "/type/datetime"), ("value", .str (pyReplaceSpaceT t))]) := rfl
  have h7 : jLookup "value" [("type", (.str "/type/datetime" : JValue)),
      ("value", .str (pyReplaceSpaceT t))] = some (.str (pyReplaceSpaceT t)) := rfl
  have h8 : jLookup "revision" (tsProcessedFields t) = some (.num 2) := rfl
  have h9 : renderRevision (.num 2) = some "2" := rfl
  have g1 : (pyStartsWith "/authors/OL1A" "/people/" ||
      pyStartsWith "/authors/OL1A" "/admin/") = false := rfl
  have g2 : (pyStartsWith "/authors/OL1A" "/b/" || pyStartsWith "/authors/OL1A" "/scan" ||
      pyStartsWith "/authors/OL1A" "/old/" || !pyStartsWith "/authors/OL1A" "/") = false := rfl
  simp only [tsRecord, printDumpRecord, h1, h2, h3, h4, h5, h6, h7, h8, h9, g1, g2,
    Bool.false_eq_true, if_false, tsLine]
  cases flt with
  | none => rfl
  | some f => rfl

theorem printDumpRecord_tsRecord_none (t : String) :
    printDumpRecord none (tsRecord t) = some (some (tsLine t)) :=
  printDumpRecord_tsRecord none t

theorem printDumpRecord_tsRecord_filter (f : JValue → Option Bool) (t : String) :
    printDumpRecord (some f) (tsRecord t) =
      match f (.obj (tsProcessedFields t)) with
      | none => none
      | some b => if b then some (some (tsLine t)) else some none :=
  printDumpRecord_tsRecord (some f) t

theorem mapM_singleton {α β : Type} (f : α → Option β) (x : α) :
    [x].mapM f = (f x).map (fun y => [y]) := by
  cases hfx : f x <;> simp [List.mapM, List.mapM.loop, hfx]

/-! ## Cutoff-date theorems (claim C2) -/

/-- C2 counterexample: with cutoff date 2020-05-17, a record whose
timestamp lies on that very day is INCLUDED in the cdump output (the claim
asserts it is excluded).  The `Z`-suffix comparison makes day-D timestamps
compare less than `"2020-05-17Z"`, so the filter keeps them. -/
theorem claim2_counterexample_day_included :
    generateCdump (some "2020-05-17") [tsRecord "2020-05-17T10:00:00"] =
      some [tsLine "2020-05-17T10:00:00"] ∧
    (tsLine "2020-05-17T10:00:00").timestamp = "2020-05-17T10:00:00" ∧
    [tsLine "2020-05-17T10:00:00"] ≠ ([] : List DumpLine) := by
  refine ⟨?_, rfl, by simp⟩
  have h := printDumpRecord_tsRecord_filter (cdumpDateFilter "2020-05-17") "2020-05-17T10:00:00"
  have hf : cdumpDateFilter "2020-05-17" (.obj (tsProcessedFields "2020-05-17T10:00:00")) =
      some true := rfl
  rw [hf] at h
  simp only [if_true] at h
  rw [generateCdump, if_neg (by decide), printDump, mapM_singleton, h]
  rfl

/-- C2 amended: the cutoff is INCLUSIVE of the boundary day.  For the
sample record with timestamp `t` and any non-empty cutoff date, the record
appears in the cdump output exactly when its (normalized) timestamp compares
lexicographically below the date with `"Z"` appended — so all timestamps of
day D itself are kept, and the first excluded timestamps are those sorting
at or after `D + "Z"` (in particular every timestamp of later days). -/
theorem claim2_amended_cutoff_inclusive (dt t : String) (hdt : dt ≠ "") :
    generateCdump (some dt) [tsRecord t] =
      some (if pyStrLt (pyReplaceSpaceT t) (dt ++ "Z") then [tsLine t] else []) := by
  have h := printDumpRecord_tsRecord_filter (cdumpDateFilter dt) t
  have hf : cdumpDateFilter dt (.obj (tsProcessedFields t)) =
      some (pyStrLt (pyReplaceSpaceT t) (dt ++ "Z")) := rfl
  rw [hf] at h
  rw [generateCdump, if_neg hdt]
  by_cases hlt : pyStrLt (pyReplaceSpaceT t) (dt ++ "Z") = true
  · have hrec : printDumpRecord (some (cdumpDateFilter dt)) (tsRecord t) =
        some (some (tsLine t)) := by
      rw [h, hlt]
      rfl
    rw [if_pos hlt, printDump, mapM_singleton, hrec]
    rfl
  · have hfalse : pyStrLt (pyReplaceSpaceT t) (dt ++ "Z") = false :=
      Bool.eq_false_iff.mpr hlt
    have hrec : printDumpRecord (some (cdumpDateFilter dt)) (tsRecord t) =
        some none := by
      rw [h, hfalse]
      rfl
    rw [if_neg hlt, printDump, mapM_singleton, hrec]
    rfl

/-- Witness for the amended C2: with cutoff 2020-05-17, the last second of
the day before is included and the first second of the day after is
excluded. -/
theorem claim2_witness :
    generateCdump (some "2020-05-17") [tsRecord "2020-05-16T23:59:59"] =
      some [tsLine "2020-05-16T23:59:59"] ∧
    generateCdump (some "2020-05-17") [tsRecord "2020-05-18T00:00:00"] = some [] := by
  constructor
  · have h := claim2_amended_cutoff_inclusive "2020-05-17" "2020-05-16T23:59:59" (by decide)
    rw [h, if_pos (by decide)]
  · have h := claim2_amended_cutoff_inclusive "2020-05-17" "2020-05-18T00:00:00" (by decide)
    rw [h, if_neg (by decide)]

theorem processKey_user_decomp {k : String} (h : pyStartsWith k "/user/" = true) :
    ∃ t : List Char, k.data = "/user/".data ++ t ∧
      (processKey k).data = "/people/".data ++ t ∧
      pyStartsWith (processKey k) "/people/" = true := by
  rw [pyStartsWith] at h
  obtain ⟨t, ht⟩ := isPrefixOf_exists h
  have hu : ("/user/" : String).data = [ '/', 'u', 's', 'e', 'r', '/' ] := rfl
  have hp : ("/people/" : String).data = [ '/', 'p', 'e', 'o', 'p', 'l', 'e', '/' ] := rfl
  have h2 : (processKey k).data = "/people/".data ++ t := by
    show processKeyL k.data = _
    rw [ht, hu, hp]
    exact processKeyL_user t
  refine ⟨t, ht, h2, ?_⟩
  rw [pyStartsWith, h2]
  exact isPrefixOf_append _ _

/-! ## Emission analysis of the generator loop (claims C6, C10) -/

theorem printDumpRecord_emit {flt : Option (JValue → Option Bool)} {r : JValue}
    {line : DumpLine} (h : printDumpRecord flt r = some (some line)) :
    (∃ kvs0 kvs2, r = .obj kvs0 ∧
      processData (.obj (jPopId kvs0)) = some (.obj kvs2) ∧
      jLookup "key" kvs2 = some (.str line.key) ∧ line.data = .obj kvs2) ∧
    pyStartsWith line.key "/people/" = false ∧
    pyStartsWith line.key "/admin/" = false ∧
    pyStartsWith line.key "/b/" = false ∧
    pyStartsWith line.key "/scan" = false ∧
    pyStartsWith line.key "/old/" = false ∧
    pyStartsWith line.key "/" = true := by
  simp only [printDumpRecord] at h
  iterate 14 all_goals (try split at h)
  all_goals simp at h
  all_goals subst h
  all_goals
    refine ⟨⟨_, _, rfl, by assumption, by assumption, rfl⟩, ?_, ?_, ?_, ?_, ?_, ?_⟩ <;>
      simp_all [Bool.or_eq_true, not_or]

theorem printDump_mem {flt : Option (JValue → Option Bool)} :
    ∀ {records : List JValue} {out : List DumpLine},
    printDump flt records = some out →
    ∀ line ∈ out, ∃ r ∈ records, printDumpRecord flt r = some (some line) := by
  intro records
  induction records with
  | nil =>
    intro out h line hline
    rw [printDump] at h
    simp only [List.mapM_nil, Option.pure_def, Option.map_some', Option.some_inj] at h
    rw [← h] at hline
    simp at hline
  | cons r rest ih =>
    intro out h line hline
    rw [printDump] at h
    cases hr : printDumpRecord flt r with
    | none => rw [List.mapM_cons, hr] at h; simp at h
    | some o =>
      cases hrest : rest.mapM (printDumpRecord flt) with
      | none => rw [List.mapM_cons, hr, hrest] at h; simp at h
      | some os =>
        rw [List.mapM_cons, hr, hrest] at h
        have hihsrc : printDump flt rest = some (os.filterMap id) := by
          rw [printDump, hrest]
          rfl
        cases o with
        | none =>
          simp at h
          subst h
          obtain ⟨r2, hr2, hr2e⟩ := ih hihsrc line hline
          exact ⟨r2, List.mem_cons_of_mem _ hr2, hr2e⟩
        | some l2 =>
          simp at h
          subst h
          rcases List.mem_cons.mp hline with h1 | h1
          · exact ⟨r, List.mem_cons_self _ _, by rw [hr, h1]⟩
          · obtain ⟨r2, hr2, hr2e⟩ := ih hihsrc line h1
            exact ⟨r2, List.mem_cons_of_mem _ hr2, hr2e⟩

/-- C6: every line the full-snapshot generator emits has a key that starts
with `/` and does not start with any filtered prefix (`/people/`, `/admin/`,
`/b/`, `/scan`, `/old/`); in particular no record with key `/people/foo`
ever appears in the output, whatever its other fields. -/
theorem claim6_filters_internal_keys (flt : Option (JValue → Option Bool))
    (records : List JValue) (out : List DumpLine)
    (h : printDump flt records = some out) :
    ∀ line ∈ out,
      pyStartsWith line.key "/people/" = false ∧
      pyStartsWith line.key "/admin/" = false ∧
      pyStartsWith line.key "/b/" = false ∧
      pyStartsWith line.key "/scan" = false ∧
      pyStartsWith line.key "/old/" = false ∧
      pyStartsWith line.key "/" = true ∧
      line.key ≠ "/people/foo" := by
  intro line hline
  obtain ⟨r, _, hr⟩ := printDump_mem h line hline
  obtain ⟨_, c1, c2, c3, c4, c5, c6⟩ := printDumpRecord_emit hr
  refine ⟨c1, c2, c3, c4, c5, c6, ?_⟩
  intro hk
  rw [hk] at c1
  have : pyStartsWith "/people/foo" "/people/" = true := rfl
  rw [this] at c1
  cases c1

/-- Witness for C6 at a concrete input: the emitted line of the sample
record passes all key filters. -/
theorem claim6_witness :
    pyStartsWith (tsLine "2020-01-01 00:00:00").key "/people/" = false ∧
    pyStartsWith (tsLine "2020-01-01 00:00:00").key "/admin/" = false ∧
    pyStartsWith (tsLine "2020-01-01 00:00:00").key "/b/" = false ∧
    pyStartsWith (tsLine "2020-01-01 00:00:00").key "/scan" = false ∧
    pyStartsWith (tsLine "2020-01-01 00:00:00").key "/old/" = false ∧
    pyStartsWith (tsLine "2020-01-01 00:00:00").key "/" = true ∧
    (tsLine "2020-01-01 00:00:00").key ≠ "/people/foo" := by
  have hp : printDump none [tsRecord "2020-01-01 00:00:00"] =
      some [tsLine "2020-01-01 00:00:00"] := by
    rw [printDump, mapM_singleton, printDumpRecord_tsRecord_none]
    rfl
  exact claim6_filters_internal_keys none [tsRecord "2020-01-01 00:00:00"]
    [tsLine "2020-01-01 00:00:00"] hp (tsLine "2020-01-01 00:00:00")
    (List.mem_cons_self _ _)

/-- C10: a raw record whose top-level key starts with `/user/` produces no
output line: normalization rewrites the prefix to `/people/`, and the
internal-prefix filter then drops the record — even though `/user/` itself
is not among the filtered prefixes. -/
theorem claim10_user_records_dropped (flt : Option (JValue → Option Bool))
    (kvs : List (String × JValue)) (k : String)
    (hkey : jLookup "key" kvs = some (.str k))
    (hu : pyStartsWith k "/user/" = true) :
    ∀ line, printDumpRecord flt (.obj kvs) ≠ some (some line) := by
  intro line h
  obtain ⟨⟨kvs0, kvs2, hobj, hproc, hkey2, _⟩, c1, _⟩ := printDumpRecord_emit h
  injection hobj with hobj
  subst hobj
  have hkp : jLookup "key" (jPopId kvs) = some (.str k) := by
    rw [jLookup_popId_ne (by decide)]
    exact hkey
  obtain ⟨kvs1, kvs2x, h1, h2, heq⟩ := processData_obj_iff.mp hproc
  injection heq with heq
  subst heq
  cases hkr : keyRewrite (jPopId kvs) with
  | none => rw [objRewrite, hkr] at h1; cases h1
  | some kvsA =>
    rw [objRewrite, hkr, Option.some_bind] at h1
    have hAkey : jLookup "key" kvsA = some (.str (processKey k)) := by
      rcases keyRewrite_cases hkr with ⟨hnone, rfl⟩ | ⟨s, hs, rfl⟩
      · rw [hnone] at hkp; cases hkp
      · rw [hs] at hkp
        injection hkp with hkp
        injection hkp with hkp
        subst hkp
        exact jLookup_setFirst_same (by rw [hs]; rfl)
    have h1key : jLookup "key" kvs1 = some (.str (processKey k)) := by
      rcases dtRewrite_cases h1 with ⟨_, rfl⟩ | ⟨_, v, hv, rfl⟩
      · exact hAkey
      · rw [jLookup_setFirst_ne (by decide)]
        exact hAkey
    obtain ⟨v2, hv2, hv2p⟩ := (forall2_lookup (processFields_forall2.mp h2) "key").2 _ h1key
    rw [processData_str] at hv2p
    injection hv2p with hv2p
    subst hv2p
    rw [hkey2] at hv2
    injection hv2 with hv2
    injection hv2 with hv2
    obtain ⟨t, hdata, hpdata, hppl⟩ := processKey_user_decomp hu
    rw [hv2, hppl] at c1
    cases c1

/-- Witness for C10 at a concrete input: a fully well-formed record whose
key is `/user/OL1A` emits no line. -/
theorem claim10_witness :
    printDumpRecord none (.obj
      [("key", .str "/user/OL1A"),
       ("type", .obj [("key", .str "/type/user")]),
       ("revision", .num 2),
       ("last_modified", .obj [("type", .str "/type/datetime"),
         ("value", .str "2020-01-01 00:00:00")])]) ≠
      some (some (tsLine "2020-01-01 00:00:00")) :=
  claim10_user_records_dropped none
    [("key", .str "/user/OL1A"),
     ("type", .obj [("key", .str "/type/user")]),
     ("revision", .num 2),
     ("last_modified", .obj [("type", .str "/type/datetime"),
       ("value", .str "2020-01-01 00:00:00")])]
    "/user/OL1A" rfl rfl (tsLine "2020-01-01 00:00:00")

/-! ## Datetime rewrite along paths (claim C7) -/

theorem forall2_get? {α β : Type} {R : α → β → Prop} :
    ∀ {l1 : List α} {l2 : List β}, List.Forall₂ R l1 l2 →
    ∀ i a, l1.get? i = some a → ∃ b, l2.get? i = some b ∧ R a b := by
  intro l1 l2 h
  induction h with
  | nil => intro i a ha; simp at ha
  | cons hpair hrest ih =>
    intro i a ha
    cases i with
    | zero =>
      simp only [List.get?] at ha
      injection ha with ha
      exact ⟨_, rfl, ha ▸ hpair⟩
    | succ n =>
      simp only [List.get?] at ha
      obtain ⟨b, hb, hR⟩ := ih n a ha
      exact ⟨b, by simpa using hb, hR⟩

/-- The target node of C7: the lookups of a datetime-tagged object are
rewritten by the object rewrite pass and preserved by the field recursion. -/
theorem processData_datetime_node {kvs : List (String × JValue)} {d2 : JValue} {v : String}
    (hproc : processData (.obj kvs) = some d2)
    (htype : jLookup "type" kvs = some (.str "/type/datetime"))
    (hval : jLookup "value" kvs = some (.str v)) :
    ∃ kvs2, d2 = .obj kvs2 ∧
      jLookup "type" kvs2 = some (.str "/type/datetime") ∧
      jLookup "value" kvs2 = some (.str (pyReplaceSpaceT v)) := by
  obtain ⟨kvs1, kvs2, h1, h2, rfl⟩ := processData_obj_iff.mp hproc
  cases hkr : keyRewrite kvs with
  | none => rw [objRewrite, hkr] at h1; cases h1
  | some kvsA =>
    rw [objRewrite, hkr, Option.some_bind] at h1
    have htypeA : jLookup "type" kvsA = some (.str "/type/datetime") := by
      rcases keyRewrite_cases hkr with ⟨_, rfl⟩ | ⟨s, hs, rfl⟩
      · exact htype
      · rw [jLookup_setFirst_ne (by decide)]
        exact htype
    have hvalA : jLookup "value" kvsA = some (.str v) := by
      rcases keyRewrite_cases hkr with ⟨_, rfl⟩ | ⟨s, hs, rfl⟩
      · exact hval
      · rw [jLookup_setFirst_ne (by decide)]
        exact hval
    rcases dtRewrite_cases h1 with ⟨hne, rfl⟩ | ⟨_, v0, hv0, rfl⟩
    · exact absurd htypeA hne
    · rw [hvalA] at hv0
      injection hv0 with hv0
      injection hv0 with hv0
      subst hv0
      have htype1 : jLookup "type" (jSetFirst "value" (.str (pyReplaceSpaceT v)) kvsA) =
          some (.str "/type/datetime") := by
        rw [jLookup_setFirst_ne (by decide)]
        exact htypeA
      have hval1 : jLookup "value" (jSetFirst "value" (.str (pyReplaceSpaceT v)) kvsA) =
          some (.str (pyReplaceSpaceT v)) :=
        jLookup_setFirst_same (by rw [hvalA]; rfl)
      obtain ⟨vt, hvt, hvtp⟩ := (forall2_lookup (processFields_forall2.mp h2) "type").2 _ htype1
      obtain ⟨vv, hvv, hvvp⟩ := (forall2_lookup (processFields_forall2.mp h2) "value").2 _ hval1
      rw [processData_str] at hvtp hvvp
      injection hvtp with hvtp
      injection hvvp with hvvp
      refine ⟨kvs2, rfl, ?_, ?_⟩
      · rw [hvt, ← hvtp]
      · rw [hvv, ← hvvp]

/-- C7: for every node of the payload tagged `/type/datetime` — reached by
any path of field names and list indices — normalization rewrites the
node's textual `value` by replacing each space with `T`, independently per
node; and when the value is a date and a time joined by a single space,
exactly that separating space is turned into a `T`. -/
theorem claim7_datetime_rewrite :
    (∀ (p : List JPath) (d d2 : JValue) (kvs : List (String × JValue)) (v : String),
      processData d = some d2 →
      getPath p d = some (.obj kvs) →
      jLookup "type" kvs = some (.str "/type/datetime") →
      jLookup "value" kvs = some (.str v) →
      ∃ kvs2, getPath p d2 = some (.obj kvs2) ∧
        jLookup "type" kvs2 = some (.str "/type/datetime") ∧
        jLookup "value" kvs2 = some (.str (pyReplaceSpaceT v))) ∧
    (∀ date time : String, ' ' ∉ date.data → ' ' ∉ time.data →
      pyReplaceSpaceT (date ++ " " ++ time) = date ++ "T" ++ time) := by
  constructor
  · intro p
    induction p with
    | nil =>
      intro d d2 kvs v hproc hpath htype hval
      rw [getPath] at hpath
      injection hpath with hpath
      subst hpath
      obtain ⟨kvs2, rfl, ht2, hv2⟩ := processData_datetime_node hproc htype hval
      exact ⟨kvs2, rfl, ht2, hv2⟩
    | cons e p ih =>
      intro d d2 kvs v hproc hpath htype hval
      cases e with
      | field k =>
        cases d with
        | obj kvs0 =>
          rw [getPath] at hpath
          cases hc : jLookup k kvs0 with
          | none => rw [hc] at hpath; cases hpath
          | some c =>
            rw [hc, Option.some_bind] at hpath
            obtain ⟨kvs1, kvs2, h1, h2, rfl⟩ := processData_obj_iff.mp hproc
            have hcns : ∀ s, c ≠ .str s := by
              intro s hcs
              subst hcs
              cases p with
              | nil =>
                rw [getPath] at hpath
                injection hpath with hpath
                cases hpath
              | cons e2 p2 =>
                cases e2 with
                | field k2 => rw [getPath.eq_def] at hpath; simp at hpath
                | idx i2 => rw [getPath.eq_def] at hpath; simp at hpath
            have hc1 : jLookup k kvs1 = some c :=
              objRewrite_lookup_nonstr h1 hc hcns
            obtain ⟨c2, hc2, hcp⟩ :=
              (forall2_lookup (processFields_forall2.mp h2) k).2 c hc1
            obtain ⟨kvsT, hT1, hT2, hT3⟩ := ih c c2 kvs v hcp hpath htype hval
            refine ⟨kvsT, ?_, hT2, hT3⟩
            rw [getPath, hc2, Option.some_bind]
            exact hT1
        | null => rw [getPath.eq_def] at hpath; simp at hpath
        | bool b => rw [getPath.eq_def] at hpath; simp at hpath
        | num n => rw [getPath.eq_def] at hpath; simp at hpath
        | str s => rw [getPath.eq_def] at hpath; simp at hpath
        | arr l => rw [getPath.eq_def] at hpath; simp at hpath
      | idx i =>
        cases d with
        | arr l =>
          rw [getPath] at hpath
          cases hc : l.get? i with
          | none => rw [hc] at hpath; cases hpath
          | some c =>
            rw [hc, Option.some_bind] at hpath
            obtain ⟨l2, h2, rfl⟩ := processData_arr_iff.mp hproc
            obtain ⟨c2, hc2, hcp⟩ :=
              forall2_get? (processArr_forall2.mp h2) i c hc
            obtain ⟨kvsT, hT1, hT2, hT3⟩ := ih c c2 kvs v hcp hpath htype hval
            refine ⟨kvsT, ?_, hT2, hT3⟩
            rw [getPath, hc2, Option.some_bind]
            exact hT1
        | null => rw [getPath.eq_def] at hpath; simp at hpath
        | bool b => rw [getPath.eq_def] at hpath; simp at hpath
        | num n => rw [getPath.eq_def] at hpath; simp at hpath
        | str s => rw [getPath.eq_def] at hpath; simp at hpath
        | obj kvs0 => rw [getPath.eq_def] at hpath; simp at hpath
  · intro date time hd ht
    exact pyReplaceSpaceT_sep date time hd ht

/-- Witness for C7 at a concrete input: the datetime node of the sample
record, at path `last_modified`, has its value space turned into a `T`. -/
theorem claim7_witness :
    ∃ kvs2, getPath [JPath.field "last_modified"]
        (.obj (tsProcessedFields "2020-01-01 00:00:00")) = some (.obj kvs2) ∧
      jLookup "type" kvs2 = some (.str "/type/datetime") ∧
      jLookup "value" kvs2 =
        some (.str (pyReplaceSpaceT "2020-01-01 00:00:00")) :=
  claim7_datetime_rewrite.1 [JPath.field "last_modified"]
    (.obj (tsFields "2020-01-01 00:00:00"))
    (.obj (tsProcessedFields "2020-01-01 00:00:00"))
    [("type", .str "/type/datetime"), ("value", .str "2020-01-01 00:00:00")]
    "2020-01-01 00:00:00"
    (processData_tsRecord "2020-01-01 00:00:00") rfl rfl rfl

/-! ## Idempotence of normalization (claim C8) -/

theorem keyRewrite_of_none {kvs : List (String × JValue)} (h : jLookup "key" kvs = none) :
    keyRewrite kvs = some kvs := by
  unfold keyRewrite
  rw [h]

theorem keyRewrite_of_str {kvs : List (String × JValue)} {s : String}
    (h : jLookup "key" kvs = some (.str s)) :
    keyRewrite kvs = some (jSetFirst "key" (.str (processKey s)) kvs) := by
  unfold keyRewrite
  rw [h]

theorem dtRewrite_of_ne {kvs : List (String × JValue)}
    (h : jLookup "type" kvs ≠ some (.str "/type/datetime")) : dtRewrite kvs = some kvs := by
  unfold dtRewrite
  split
  next heq => exact absurd heq h
  next => rfl

theorem dtRewrite_of_dt {kvs : List (String × JValue)} {v : String}
    (ht : jLookup "type" kvs = some (.str "/type/datetime"))
    (hv : jLookup "value" kvs = some (.str v)) :
    dtRewrite kvs = some (jSetFirst "value" (.str (pyReplaceSpaceT v)) kvs) := by
  unfold dtRewrite
  rw [ht, hv]
  rfl

theorem processData_ne_dtstr {w w2 : JValue} (h : processData w = some w2)
    (hne : w ≠ .str "/type/datetime") : w2 ≠ .str "/type/datetime" := by
  cases w with
  | str s =>
    rw [processData_str] at h
    injection h with h
    subst h
    exact hne
  | null => rw [processData_null] at h; injection h with h; subst h; simp
  | bool b => rw [processData_bool] at h; injection h with h; subst h; simp
  | num n => rw [processData_num] at h; injection h with h; subst h; simp
  | obj kvs => obtain ⟨_, _, _, _, rfl⟩ := processData_obj_iff.mp h; simp
  | arr l => obtain ⟨_, _, rfl⟩ := processData_arr_iff.mp h; simp

theorem forall2_mem_right {α β : Type} {R : α → β → Prop} :
    ∀ {l1 : List α} {l2 : List β}, List.Forall₂ R l1 l2 →
    ∀ b ∈ l2, ∃ a ∈ l1, R a b := by
  intro l1 l2 h
  induction h with
  | nil => intro b hb; simp at hb
  | cons hpair hrest ih =>
    intro b hb
    rcases List.mem_cons.mp hb with hb | hb
    · exact ⟨_, List.mem_cons_self _ _, hb ▸ hpair⟩
    · obtain ⟨a, ha, hR⟩ := ih b hb
      exact ⟨a, List.mem_cons_of_mem _ ha, hR⟩

theorem objRewrite_mem {kvs kvs1 : List (String × JValue)} (h : objRewrite kvs = some kvs1) :
    ∀ kv1 ∈ kvs1, (∃ kv ∈ kvs, kv1.2 = kv.2) ∨ ∃ s, kv1.2 = .str s := by
  intro kv1 hkv1
  cases hkr : keyRewrite kvs with
  | none => rw [objRewrite, hkr] at h; cases h
  | some kvsA =>
    rw [objRewrite, hkr, Option.some_bind] at h
    have hA : kv1 ∈ kvsA ∨ ∃ s, kv1.2 = .str s := by
      rcases dtRewrite_cases h with ⟨_, rfl⟩ | ⟨_, v, hv, rfl⟩
      · exact Or.inl hkv1
      · rcases jSetFirst_mem hkv1 with hm | hm
        · exact Or.inl hm
        · exact Or.inr ⟨pyReplaceSpaceT v, by rw [hm]⟩
    rcases hA with hA | hA
    · rcases keyRewrite_cases hkr with ⟨_, rfl⟩ | ⟨s, hs, rfl⟩
      · exact Or.inl ⟨kv1, hA, rfl⟩
      · rcases jSetFirst_mem hA with hm | hm
        · exact Or.inl ⟨kv1, hm, rfl⟩
        · exact Or.inr ⟨processKey s, by rw [hm]⟩
    · exact Or.inr hA

theorem dtRewrite_fixpoint {kvsA kvs1 kvs2 : List (String × JValue)}
    (hdt : dtRewrite kvsA = some kvs1)
    (hpf : processFields kvs1 = some kvs2) :
    dtRewrite kvs2 = some kvs2 := by
  have hf2 := processFields_forall2.mp hpf
  rcases dtRewrite_cases hdt with ⟨hne, rfl⟩ | ⟨ht, v, hv, rfl⟩
  · cases htk : jLookup "type" kvs1 with
    | none =>
      have h2 : jLookup "type" kvs2 = none := (forall2_lookup hf2 "type").1 htk
      exact dtRewrite_of_ne (by rw [h2]; simp)
    | some w =>
      obtain ⟨w2, hw2, hw2p⟩ := (forall2_lookup hf2 "type").2 w htk
      have hwne : w ≠ .str "/type/datetime" := by
        intro hh
        rw [hh] at htk
        exact hne htk
      have hw2ne : w2 ≠ .str "/type/datetime" := processData_ne_dtstr hw2p hwne
      refine dtRewrite_of_ne ?_
      rw [hw2]
      intro hh
      injection hh with hh
      exact hw2ne hh
  · have ht1 : jLookup "type" (jSetFirst "value" (.str (pyReplaceSpaceT v)) kvsA) =
        some (.str "/type/datetime") := by
      rw [jLookup_setFirst_ne (by decide)]
      exact ht
    have hv1 : jLookup "value" (jSetFirst "value" (.str (pyReplaceSpaceT v)) kvsA) =
        some (.str (pyReplaceSpaceT v)) :=
      jLookup_setFirst_same (by rw [hv]; rfl)
    obtain ⟨wt, hwt, hwtp⟩ := (forall2_lookup hf2 "type").2 _ ht1
    obtain ⟨wv, hwv, hwvp⟩ := (forall2_lookup hf2 "value").2 _ hv1
    rw [processData_str] at hwtp hwvp
    injection hwtp with hwtp
    injection hwvp with hwvp
    subst hwtp
    subst hwvp
    rw [dtRewrite_of_dt hwt hwv, pyReplaceSpaceT_idem, jSetFirst_self hwv]

theorem objRewrite_fixpoint {kvs kvs1 kvs2 : List (String × JValue)}
    (hor : objRewrite kvs = some kvs1) (hpf : processFields kvs1 = some kvs2) :
    objRewrite kvs2 = some kvs2 := by
  cases hkr : keyRewrite kvs with
  | none => rw [objRewrite, hkr] at hor; cases hor
  | some kvsA =>
    rw [objRewrite, hkr, Option.some_bind] at hor
    have hf2 := processFields_forall2.mp hpf
    rcases keyRewrite_cases hkr with ⟨hknone, rfl⟩ | ⟨s, hks, rfl⟩
    · have hk1 : jLookup "key" kvs1 = none := by
        rcases dtRewrite_cases hor with ⟨_, rfl⟩ | ⟨_, v, hv, rfl⟩
        · exact hknone
        · rw [jLookup_setFirst_ne (by decide)]
          exact hknone
      have hk2 : jLookup "key" kvs2 = none := (forall2_lookup hf2 "key").1 hk1
      rw [objRewrite, keyRewrite_of_none hk2, Option.some_bind]
      exact dtRewrite_fixpoint hor hpf
    · have hkA : jLookup "key" (jSetFirst "key" (.str (processKey s)) kvs) =
          some (.str (processKey s)) :=
        jLookup_setFirst_same (by rw [hks]; rfl)
      have hk1 : jLookup "key" kvs1 = some (.str (processKey s)) := by
        rcases dtRewrite_cases hor with ⟨_, rfl⟩ | ⟨_, v, hv, rfl⟩
        · exact hkA
        · rw [jLookup_setFirst_ne (by decide)]
          exact hkA
      obtain ⟨w2, hw2, hw2p⟩ := (forall2_lookup hf2 "key").2 _ hk1
      rw [processData_str] at hw2p
      injection hw2p with hw2p
      subst hw2p
      rw [objRewrite, keyRewrite_of_str hw2, processKey_idem, jSetFirst_self hw2,
        Option.some_bind]
      exact dtRewrite_fixpoint hor hpf

theorem processData_idem : ∀ d d2, processData d = some d2 → processData d2 = some d2 := by
  intro d
  induction d using JValue.indOn with
  | hnull =>
    intro d2 h
    rw [processData_null] at h
    injection h with h
    subst h
    exact processData_null
  | hbool b =>
    intro d2 h
    rw [processData_bool] at h
    injection h with h
    subst h
    exact processData_bool b
  | hnum n =>
    intro d2 h
    rw [processData_num] at h
    injection h with h
    subst h
    exact processData_num n
  | hstr s =>
    intro d2 h
    rw [processData_str] at h
    injection h with h
    subst h
    exact processData_str s
  | harr l ih =>
    intro d2 h
    obtain ⟨l2, h2, rfl⟩ := processData_arr_iff.mp h
    apply processData_arr_iff.mpr
    refine ⟨l2, ?_, rfl⟩
    apply processArr_forall2.mpr
    apply List.forall₂_same.mpr
    intro x hx
    obtain ⟨a, ha, hR⟩ := forall2_mem_right (processArr_forall2.mp h2) x hx
    exact ih a ha x hR
  | hobj kvs ih =>
    intro d2 h
    obtain ⟨kvs1, kvs2, h1, h2, rfl⟩ := processData_obj_iff.mp h
    apply processData_obj_iff.mpr
    refine ⟨kvs2, kvs2, objRewrite_fixpoint h1 h2, ?_, rfl⟩
    apply processFields_forall2.mpr
    apply List.forall₂_same.mpr
    intro kv2 hkv2
    refine ⟨rfl, ?_⟩
    obtain ⟨kv1, hkv1, hrel⟩ := forall2_mem_right (processFields_forall2.mp h2) kv2 hkv2
    rcases objRewrite_mem h1 kv1 hkv1 with ⟨kv, hkv, heq⟩ | ⟨s, heq⟩
    · exact ih kv hkv kv2.2 (heq ▸ hrel.2)
    · have hp := hrel.2
      rw [heq, processData_str] at hp
      injection hp with hp
      rw [← hp]
      exact processData_str s

/-- C8: record normalization is idempotent — whenever `_process_data`
succeeds, running it again on its output returns the output unchanged; and
the key rewrite leaves keys already in canonical long-prefix form
(`/authors/`, `/books/`, `/languages/`, `/people/`) untouched. -/
theorem claim8_normalization_idempotent :
    (∀ d d2, processData d = some d2 → processData d2 = some d2) ∧
    (∀ r : String, processKey ("/authors/" ++ r) = "/authors/" ++ r ∧
      processKey ("/books/" ++ r) = "/books/" ++ r ∧
      processKey ("/languages/" ++ r) = "/languages/" ++ r ∧
      processKey ("/people/" ++ r) = "/people/" ++ r) := by
  refine ⟨processData_idem, ?_⟩
  intro r
  refine ⟨?_, ?_, ?_, ?_⟩
  · apply String.ext
    show processKeyL (("/authors/" ++ r).data) = ("/authors/" ++ r).data
    rw [String.data_append]
    rw [show ("/authors/" : String).data = [ '/', 'a', 'u', 't', 'h', 'o', 'r', 's', '/' ]
      from rfl]
    exact processKeyL_fix_auth r.data
  · apply String.ext
    show processKeyL (("/books/" ++ r).data) = ("/books/" ++ r).data
    rw [String.data_append]
    rw [show ("/books/" : String).data = [ '/', 'b', 'o', 'o', 'k', 's', '/' ] from rfl]
    exact processKeyL_fix_book r.data
  · apply String.ext
    show processKeyL (("/languages/" ++ r).data) = ("/languages/" ++ r).data
    rw [String.data_append]
    rw [show ("/languages/" : String).data =
      [ '/', 'l', 'a', 'n', 'g', 'u', 'a', 'g', 'e', 's', '/' ] from rfl]
    exact processKeyL_fix_lang r.data
  · apply String.ext
    show processKeyL (("/people/" ++ r).data) = ("/people/" ++ r).data
    rw [String.data_append]
    rw [show ("/people/" : String).data = [ '/', 'p', 'e', 'o', 'p', 'l', 'e', '/' ]
      from rfl]
    exact processKeyL_fix_people r.data

/-- Witness for C8 at a concrete input: normalizing the already-normalized
sample record returns it unchanged. -/
theorem claim8_witness :
    processData (.obj (tsProcessedFields "2020-01-01 00:00:00")) =
      some (.obj (tsProcessedFields "2020-01-01 00:00:00")) :=
  claim8_normalization_idempotent.1 (.obj (tsFields "2020-01-01 00:00:00"))
    (.obj (tsProcessedFields "2020-01-01 00:00:00"))
    (processData_tsRecord "2020-01-01 00:00:00")
